import Mathlib

/-!
Verification development for the IR-generation stage of the r9cc compiler
(`src/ir.rs`).  The Rust source lowers a parsed AST (`Node`) into, per
function, a linear list of instructions (`IR`) over virtual registers,
together with the stack-frame size.  The lowering uses four pieces of
mutable state: a name-to-offset map `VARS`, a register counter `REGNO`
(initialised to 1), a stack-size accumulator `STACKSIZE` (initialised to 0)
and a program-wide label counter `LABEL` (initialised to 0).  We embed that
state as an explicit `GenState` record threaded through the lowering
functions; Rust panics become `Option.none`.
-/

namespace R9cc

/-- Token kinds consumed by this stage (`TokenType` in `token.rs`): the four
arithmetic operators and the assignment operator. -/
inductive TokenType where
  | Plus | Minus | Mul | Div | Equal
deriving DecidableEq, Repr

mutual
/-- AST node (`NodeType` in `parse.rs`, restricted to the kinds consumed by
`ir.rs`).  Lists and the optional else-branch are represented by the mutual
types `NodeList` and `NodeOpt` so that all lowering functions are structurally
recursive (hence computable by the kernel). -/
inductive Node where
  | Num (val : Nat)
  | Ident (name : String)
  | Call (name : String) (args : NodeList)
  | BinOp (op : TokenType) (lhs rhs : Node)
  | If (cond : Node) (thenStmt : Node) (els : NodeOpt)
  | Return (expr : Node)
  | ExprStmt (expr : Node)
  | CompStmt (stmts : NodeList)
  | Func (name : String) (args : NodeList) (body : Node)
/-- List of AST nodes (argument lists, statement lists). -/
inductive NodeList where
  | nil
  | cons (head : Node) (tail : NodeList)
/-- Optional AST node (the else branch of an if statement). -/
inductive NodeOpt where
  | none
  | some (node : Node)
end

/-- Length of a `NodeList`. -/
def NodeList.length : NodeList → Nat
  | .nil => 0
  | .cons _ t => 1 + t.length

/-- Opcode set (`IROp` in `ir.rs`).  The call opcode carries the callee name,
the argument count and the fixed-capacity argument-register array (a list
that is always of length 6, padded with zeros, mirroring `[usize; 6]`). -/
inductive IROp where
  | Imm
  | Mov
  | Add
  | SubImm
  | Sub
  | Mul
  | Div
  | Return
  | Call (name : String) (nargs : Nat) (args : List Nat)
  | Label
  | Jmp
  | Unless
  | Load
  | Store
  | Kill
  | SaveArgs
  | Nop
deriving DecidableEq, Repr

/-- Operand-shape classification of an opcode (`IRType` in `ir.rs`). -/
inductive IRType where
  | Noarg
  | Reg
  | Imm
  | Label
  | RegReg
  | RegImm
  | RegLabel
  | Call
deriving DecidableEq, Repr

/-- One instruction (`IR` in `ir.rs`): opcode plus two optional operands. -/
structure IR where
  op : IROp
  lhs : Option Nat
  rhs : Option Nat
deriving DecidableEq, Repr

/-- A lowered function (`Function` in `ir.rs`). -/
structure Function where
  name : String
  ir : List IR
  stacksize : Nat
deriving DecidableEq, Repr

/-- Display metadata lookup (`get_irinfo` plus the `IRINFO` table in
`ir.rs`): mnemonic string and operand shape for an opcode.  The Rust code
scans the 17-entry table and special-cases the payload-carrying call opcode;
the scan always succeeds, so we express it as a total function. -/
def get_irinfo : IROp → String × IRType
  | .Add => ("ADD", .RegReg)
  | .Sub => ("SUB", .RegReg)
  | .Mul => ("MUL", .RegReg)
  | .Div => ("DIV", .RegReg)
  | .Imm => ("MOV", .RegImm)
  | .SubImm => ("SUB", .RegImm)
  | .Mov => ("MOV", .RegReg)
  | .Label => ("", .Label)
  | .Jmp => ("", .Label)
  | .Unless => ("UNLESS", .RegLabel)
  | .Call _ _ _ => ("CALL", .Call)
  | .Return => ("RET", .Reg)
  | .Load => ("LOAD", .RegReg)
  | .Store => ("STORE", .RegReg)
  | .Kill => ("KILL", .Reg)
  | .SaveArgs => ("SAVE_ARGS", .Imm)
  | .Nop => ("NOP", .Noarg)

/-- Textual rendering of one instruction (`impl fmt::Display for IR` in
`ir.rs`).  The Rust implementation unconditionally unwraps `lhs`, and
unwraps `rhs` for the two-operand shapes; each unwrap that would panic is
modelled as `none`.  For a call, the loop over `0..nargs` indexes the
6-element argument array, which panics when `nargs` exceeds its length. -/
def displayIR (ir : IR) : Option String :=
  let info := get_irinfo ir.op
  match ir.lhs with
  | Option.none => Option.none
  | Option.some lhs =>
    match info.2 with
    | .Label => Option.some (".L" ++ Nat.repr lhs ++ "=>\n")
    | .Imm => Option.some (info.1 ++ " " ++ Nat.repr lhs ++ "\n")
    | .Reg => Option.some (info.1 ++ " r" ++ Nat.repr lhs ++ "\n")
    | .RegReg =>
      ir.rhs.map (fun rhs => info.1 ++ " r" ++ Nat.repr lhs ++ ", r" ++ Nat.repr rhs ++ "\n")
    | .RegImm =>
      ir.rhs.map (fun rhs => info.1 ++ " r" ++ Nat.repr lhs ++ ", " ++ Nat.repr rhs ++ "\n")
    | .RegLabel =>
      ir.rhs.map (fun rhs => info.1 ++ " r" ++ Nat.repr lhs ++ ", .L" ++ Nat.repr rhs ++ "\n")
    | .Call =>
      match ir.op with
      | .Call cname nargs args =>
        if nargs ≤ args.length then
          Option.some (", r" ++ Nat.repr lhs ++ " = " ++ cname ++ "(" ++
            String.join ((args.take nargs).map (fun a => ", r" ++ Nat.repr a)))
        else Option.none
      | _ => Option.none
    | .Noarg => Option.some (info.1 ++ "\n")

/-- Mutable lowering state of `ir.rs`: the `VARS` symbol table (modelled as
an association list where insertion prepends, matching `HashMap` lookup
semantics), the `REGNO` register counter, the `STACKSIZE` accumulator and
the program-wide `LABEL` counter. -/
structure GenState where
  vars : List (String × Nat)
  regno : Nat
  stacksize : Nat
  label : Nat
deriving DecidableEq, Repr

/-- State at process start: `REGNO = 1`, `STACKSIZE = 0`, `LABEL = 0`,
empty symbol table (the `lazy_static` initialisers in `ir.rs`). -/
def initState : GenState := ⟨[], 1, 0, 0⟩

/-- Lvalue lowering (`gen_lval` in `ir.rs`).  Only an identifier is an
lvalue; an unseen name is assigned the current stack size as its offset and
the stack size then grows by 8.  A fresh register is seeded from the frame
base with `Mov` and turned into the variable's address with `SubImm`. -/
def gen_lval (st : GenState) (code : List IR) : Node → Option (GenState × List IR × Nat)
  | .Ident name =>
    let (vars, stacksize) :=
      if (st.vars.lookup name).isNone then
        ((name, st.stacksize) :: st.vars, st.stacksize + 8)
      else (st.vars, st.stacksize)
    match vars.lookup name with
    | Option.none => Option.none
    | Option.some off =>
      let r := st.regno
      Option.some ({ st with vars := vars, stacksize := stacksize, regno := r + 1 },
        code ++ [⟨.Mov, Option.some r, Option.some 0⟩, ⟨.SubImm, Option.some r, Option.some off⟩],
        r)
  | _ => Option.none

/-- Conversion from an arithmetic token to an opcode
(`impl From<TokenType> for IROp` in `ir.rs`); any other token panics. -/
def iropOfToken : TokenType → Option IROp
  | .Plus => Option.some .Add
  | .Minus => Option.some .Sub
  | .Mul => Option.some .Mul
  | .Div => Option.some .Div
  | .Equal => Option.none

mutual
/-- Expression lowering (`gen_expr` in `ir.rs`): appends instructions and
returns the register holding the result (the address register for an
assignment). -/
def gen_expr (st : GenState) (code : List IR) : Node → Option (GenState × List IR × Nat)
  | .Num val =>
    let r := st.regno
    Option.some ({ st with regno := r + 1 }, code ++ [⟨.Imm, Option.some r, Option.some val⟩], r)
  | .Ident name => do
    let (st1, c1, r) ← gen_lval st code (.Ident name)
    Option.some (st1, c1 ++ [⟨.Load, Option.some r, Option.some r⟩], r)
  | .Call name args => do
    let (st1, c1, regs) ← gen_expr_args st code 0 args
    let r := st1.regno
    let argsIr := regs ++ List.replicate (6 - regs.length) 0
    Option.some ({ st1 with regno := r + 1 },
      (c1 ++ [⟨.Call name args.length argsIr, Option.some r, Option.none⟩]) ++
        regs.map (fun q => ⟨.Kill, Option.some q, Option.none⟩),
      r)
  | .BinOp op l rterm =>
    match op with
    | .Equal => do
      let (st1, c1, v) ← gen_expr st code rterm
      let (st2, c2, a) ← gen_lval st1 c1 l
      Option.some (st2,
        c2 ++ [⟨.Store, Option.some a, Option.some v⟩, ⟨.Kill, Option.some v, Option.none⟩],
        a)
    | _ => do
      let (st1, c1, lv) ← gen_expr st code l
      let (st2, c2, rv) ← gen_expr st1 c1 rterm
      let op2 ← iropOfToken op
      Option.some (st2,
        c2 ++ [⟨op2, Option.some lv, Option.some rv⟩, ⟨.Kill, Option.some rv, Option.none⟩],
        lv)
  | _ => Option.none

/-- Argument-list lowering inside a call (the `for i in 0..args.len()` loop
of `gen_expr`): each argument is lowered left-to-right, then stored into the
6-element array at index `i`, which panics (`none`) when `i ≥ 6`.  The Rust
assignment evaluates `gen_expr` before the out-of-bounds index check. -/
def gen_expr_args (st : GenState) (code : List IR) (i : Nat) :
    NodeList → Option (GenState × List IR × List Nat)
  | .nil => Option.some (st, code, [])
  | .cons a rest => do
    let (st1, c1, r) ← gen_expr st code a
    if i < 6 then do
      let (st2, c2, rs) ← gen_expr_args st1 c1 (i + 1) rest
      Option.some (st2, c2, r :: rs)
    else Option.none
end

mutual
/-- Statement lowering (`gen_stmt` in `ir.rs`). -/
def gen_stmt (st : GenState) (code : List IR) : Node → Option (GenState × List IR)
  | .If cond thenStmt els => do
    let (st1, c1, r) ← gen_expr st code cond
    let x := st1.label
    let st2 := { st1 with label := x + 1 }
    let c2 := c1 ++ [⟨.Unless, Option.some r, Option.some x⟩, ⟨.Kill, Option.some r, Option.none⟩]
    let (st3, c3) ← gen_stmt st2 c2 thenStmt
    match els with
    | .some e => do
      let y := st3.label
      let st4 := { st3 with label := y + 1 }
      let c4 := c3 ++ [⟨.Jmp, Option.some y, Option.none⟩, ⟨.Label, Option.some x, Option.none⟩]
      let (st5, c5) ← gen_stmt st4 c4 e
      Option.some (st5, c5 ++ [⟨.Label, Option.some y, Option.none⟩])
    | .none =>
      Option.some (st3, c3 ++ [⟨.Label, Option.some x, Option.none⟩])
  | .Return expr => do
    let (st1, c1, r) ← gen_expr st code expr
    Option.some (st1,
      c1 ++ [⟨.Return, Option.some r, Option.none⟩, ⟨.Kill, Option.some r, Option.none⟩])
  | .ExprStmt expr => do
    let (st1, c1, r) ← gen_expr st code expr
    Option.some (st1, c1 ++ [⟨.Kill, Option.some r, Option.none⟩])
  | .CompStmt stmts => gen_stmt_list st code stmts
  | _ => Option.none

/-- Lowering of a statement list (the loop in the compound-statement arm of
`gen_stmt`). -/
def gen_stmt_list (st : GenState) (code : List IR) : NodeList → Option (GenState × List IR)
  | .nil => Option.some (st, code)
  | .cons n rest => do
    let (st1, c1) ← gen_stmt st code n
    gen_stmt_list st1 c1 rest
end

/-- Parameter-binding loop of `gen_args` in `ir.rs`: for each identifier
parameter, the stack size grows by 8 first and the name is then bound to the
post-increment stack size; a non-identifier parameter panics. -/
def gen_args_loop (st : GenState) : NodeList → Option GenState
  | .nil => Option.some st
  | .cons (.Ident name) rest =>
    let stacksize := st.stacksize + 8
    gen_args_loop { st with stacksize := stacksize, vars := (name, stacksize) :: st.vars } rest
  | .cons _ _ => Option.none

/-- Parameter binding (`gen_args` in `ir.rs`): nothing is emitted for an
empty parameter list; otherwise one `SaveArgs(n)` is emitted and every
parameter is bound by `gen_args_loop`. -/
def gen_args (st : GenState) (code : List IR) (nodes : NodeList) : Option (GenState × List IR) :=
  if nodes.length = 0 then Option.some (st, code)
  else do
    let st1 ← gen_args_loop st nodes
    Option.some (st1, code ++ [⟨.SaveArgs, Option.some nodes.length, Option.none⟩])

/-- Top-level driver (`gen_ir` in `ir.rs`): every top-level node must be a
function definition; for each, the symbol table is cleared, the register
counter reset to 1 and the stack size reset to 0 (the label counter is NOT
reset), parameters are bound, the body is lowered and a `Function` record is
produced. -/
def gen_ir (st : GenState) : List Node → Option (List Function × GenState)
  | [] => Option.some ([], st)
  | .Func name args body :: rest => do
    let st0 := { st with vars := [], regno := 1, stacksize := 0 }
    let (st1, c1) ← gen_args st0 [] args
    let (st2, c2) ← gen_stmt st1 c1 body
    let (fns, st3) ← gen_ir st2 rest
    Option.some (Function.mk name c2 st2.stacksize :: fns, st3)
  | _ => Option.none

/-! ### Instruction classification used by the invariants -/

/-- The destination register freshly allocated by an instruction, when there
is one.  The lowering pass allocates a fresh register exactly when it emits
an `Imm` (numeric literal), a `Mov` (start of an address computation in
`gen_lval`) or a `Call` (result register); every other emitted instruction
reuses registers. -/
def allocOf (ir : IR) : Option Nat :=
  match ir.op with
  | .Imm => ir.lhs
  | .Mov => ir.lhs
  | .Call _ _ _ => ir.lhs
  | _ => Option.none

/-- All freshly allocated destination registers of an instruction list, in
emission order. -/
def allocList (l : List IR) : List Nat := l.filterMap allocOf

/-- The label id defined by an instruction (for `Label` instructions). -/
def labelOf (ir : IR) : Option Nat :=
  match ir.op with
  | .Label => ir.lhs
  | _ => Option.none

/-- All label ids defined by `Label` instructions of a list, in order. -/
def labelDefs (l : List IR) : List Nat := l.filterMap labelOf

/-- Checks that every `Kill` instruction names a register that was freshly
allocated by an earlier instruction of the list (`avail` holds the registers
allocated before the list starts). -/
def killsWF (avail : List Nat) : List IR → Bool
  | [] => true
  | ir :: rest =>
    (match ir.op, ir.lhs with
     | .Kill, Option.some r => avail.contains r
     | .Kill, Option.none => false
     | _, _ => true)
    && killsWF (avail ++ (allocOf ir).toList) rest

/-- Whether an instruction is a branch (`Jmp` or `Unless`). -/
def isJump (ir : IR) : Bool :=
  match ir.op with
  | .Jmp => true
  | .Unless => true
  | _ => false

/-- Checks that a branch instruction targets a label defined in `rest` (the
instructions after it); `Jmp` carries its target in `lhs`, `Unless` in
`rhs`.  Non-branch instructions pass trivially. -/
def jumpTargetOk (ir : IR) (rest : List IR) : Bool :=
  match ir.op, ir.lhs, ir.rhs with
  | .Jmp, Option.some t, _ => (labelDefs rest).contains t
  | .Jmp, Option.none, _ => false
  | .Unless, _, Option.some t => (labelDefs rest).contains t
  | .Unless, _, Option.none => false
  | _, _, _ => true

/-- Checks that every branch of the list targets a label defined later in
the same list. -/
def jumpsWF : List IR → Bool
  | [] => true
  | ir :: rest => jumpTargetOk ir rest && jumpsWF rest

def EmitOk (lo n : Nat) (d : List IR) : Prop :=
  allocList d = List.range' lo n ∧ killsWF [] d = true ∧ labelDefs d = [] ∧
  (∀ ir ∈ d, isJump ir = false) ∧ (∀ ir ∈ d, (displayIR ir).isSome = true)

def ExprOut (st : GenState) (d : List IR) (st2 : GenState) (r : Nat) : Prop :=
  st.regno ≤ st2.regno ∧ st.regno ≤ r ∧ r < st2.regno ∧ st2.label = st.label ∧
  EmitOk st.regno (st2.regno - st.regno) d

def StmtOut (st : GenState) (d : List IR) (st2 : GenState) : Prop :=
  st.regno ≤ st2.regno ∧ st.label ≤ st2.label ∧
  allocList d = List.range' st.regno (st2.regno - st.regno) ∧
  killsWF [] d = true ∧
  (∀ x ∈ labelDefs d, st.label ≤ x ∧ x < st2.label) ∧
  (labelDefs d).Nodup ∧
  jumpsWF d = true ∧
  (∀ ir ∈ d, (displayIR ir).isSome = true)

def isFunc : Node → Bool
  | .Func _ _ _ => true
  | _ => false

def nodeFuncName : Node → Option String
  | .Func n _ _ => Option.some n
  | _ => Option.none

/-! ### Concrete example programs used as witnesses -/

/-- The program `main() { x = 3; return x; }`. -/
def exProg2 : Node :=
  .Func "main" .nil (.CompStmt (.cons (.ExprStmt (.BinOp .Equal (.Ident "x") (.Num 3)))
    (.cons (.Return (.Ident "x")) .nil)))

/-- The instruction list the lowering actually produces for `exProg2`. -/
def exProg2Out : List IR :=
  [⟨.Imm, Option.some 1, Option.some 3⟩,
   ⟨.Mov, Option.some 2, Option.some 0⟩,
   ⟨.SubImm, Option.some 2, Option.some 0⟩,
   ⟨.Store, Option.some 2, Option.some 1⟩,
   ⟨.Kill, Option.some 1, Option.none⟩,
   ⟨.Kill, Option.some 2, Option.none⟩,
   ⟨.Mov, Option.some 3, Option.some 0⟩,
   ⟨.SubImm, Option.some 3, Option.some 0⟩,
   ⟨.Load, Option.some 3, Option.some 3⟩,
   ⟨.Return, Option.some 3, Option.none⟩,
   ⟨.Kill, Option.some 3, Option.none⟩]

/-- The instruction sequence claimed by the specification's scenario 2:
address computed first (`Mov r1,0; SubImm r1,0`), then `Imm r2,3`, and no
`Kill` of the assignment's result register. -/
def exC2Claimed : List IR :=
  [⟨.Mov, Option.some 1, Option.some 0⟩,
   ⟨.SubImm, Option.some 1, Option.some 0⟩,
   ⟨.Imm, Option.some 2, Option.some 3⟩,
   ⟨.Store, Option.some 1, Option.some 2⟩,
   ⟨.Kill, Option.some 2, Option.none⟩,
   ⟨.Mov, Option.some 3, Option.some 0⟩,
   ⟨.SubImm, Option.some 3, Option.some 0⟩,
   ⟨.Load, Option.some 3, Option.some 3⟩,
   ⟨.Return, Option.some 3, Option.none⟩,
   ⟨.Kill, Option.some 3, Option.none⟩]

/-- The program `main() { if (1) return 1; else return 2; }`. -/
def exProgIf : Node :=
  .Func "main" .nil (.CompStmt (.cons
    (.If (.Num 1) (.Return (.Num 1)) (.some (.Return (.Num 2)))) .nil))

/-- The instruction list the lowering produces for `exProgIf`. -/
def exProgIfOut : List IR :=
  [⟨.Imm, Option.some 1, Option.some 1⟩,
   ⟨.Unless, Option.some 1, Option.some 0⟩,
   ⟨.Kill, Option.some 1, Option.none⟩,
   ⟨.Imm, Option.some 2, Option.some 1⟩,
   ⟨.Return, Option.some 2, Option.none⟩,
   ⟨.Kill, Option.some 2, Option.none⟩,
   ⟨.Jmp, Option.some 1, Option.none⟩,
   ⟨.Label, Option.some 0, Option.none⟩,
   ⟨.Imm, Option.some 3, Option.some 2⟩,
   ⟨.Return, Option.some 3, Option.none⟩,
   ⟨.Kill, Option.some 3, Option.none⟩,
   ⟨.Label, Option.some 1, Option.none⟩]

/-- The `Function` record produced for `exProgIf`. -/
def exFnIf : Function := ⟨"main", exProgIfOut, 0⟩

/-- The state after lowering `exProgIf` from `initState`. -/
def exStateIf : GenState := ⟨[], 4, 0, 2⟩

/-- Builds the parameter `NodeList` from a list of names. -/
def identList : List String → NodeList
  | [] => .nil
  | n :: rest => .cons (.Ident n) (identList rest)

/-- The bindings created by the parameter loop: the i-th name (0-based) is
bound to `base + 8 * (i + 1)` — the post-increment stack size. -/
def paramBindings (base : Nat) : List String → List (String × Nat)
  | [] => []
  | n :: rest => (n, base + 8) :: paramBindings (base + 8) rest

/-! ### Claim C3: the rendering identifies the opcode family -/

/-- The opcode family: the call opcode's payload is irrelevant to its
display metadata, so it is normalised away; every other opcode is its own
family. -/
def IROp.family : IROp → IROp
  | .Call _ _ _ => .Call "" 0 []
  | o => o

/-- Numeric code of the render class of an opcode.  `Label` and `Jmp` share
code 0: their renderings are identical by construction. -/
def famCode : IROp → Nat
  | .Label => 0
  | .Jmp => 0
  | .Imm => 1
  | .Mov => 2
  | .Add => 3
  | .Sub => 4
  | .SubImm => 5
  | .Mul => 6
  | .Div => 7
  | .Unless => 8
  | .Call _ _ _ => 9
  | .Return => 10
  | .Load => 11
  | .Store => 12
  | .Kill => 13
  | .SaveArgs => 14
  | .Nop => 15

/-- After skipping to the first comma of the rendering, is the character
following the separating space an `r`?  Distinguishes the register-register
shape from the register-immediate shape of a shared mnemonic. -/
def afterCommaIsR : List Char → Bool
  | [] => false
  | c :: rest =>
    if c = ',' then
      match rest with
      | c1 :: c2 :: _ => c1 == ' ' && c2 == 'r'
      | _ => false
    else afterCommaIsR rest

/-- The family classifier on rendered text: reads the mnemonic prefix (and,
for the two shared mnemonics, the shape of the second operand) and returns
the corresponding `famCode`. -/
def famOfChars : List Char → Nat
  | '.' :: _ => 0
  | 'M' :: 'O' :: 'V' :: ' ' :: 'r' :: rest => if afterCommaIsR rest then 2 else 1
  | 'M' :: _ => 6
  | 'A' :: _ => 3
  | 'S' :: 'U' :: 'B' :: ' ' :: 'r' :: rest => if afterCommaIsR rest then 4 else 5
  | 'S' :: 'T' :: _ => 12
  | 'S' :: 'A' :: _ => 14
  | 'D' :: _ => 7
  | 'U' :: _ => 8
  | ',' :: _ => 9
  | 'R' :: _ => 10
  | 'L' :: _ => 11
  | 'K' :: _ => 13
  | 'N' :: _ => 15
  | _ => 99

theorem allocList_append (a b : List IR) : allocList (a ++ b) = allocList a ++ allocList b := by
  simp [allocList]

theorem labelDefs_append (a b : List IR) : labelDefs (a ++ b) = labelDefs a ++ labelDefs b := by
  simp [labelDefs]

theorem killsWF_append (a b : List IR) : ∀ avail,
    killsWF avail (a ++ b) = (killsWF avail a && killsWF (avail ++ allocList a) b) := by
  induction a with
  | nil => intro avail; simp [killsWF, allocList]
  | cons ir rest ih =>
    intro avail
    have hal : avail ++ (allocOf ir).toList ++ allocList rest = avail ++ allocList (ir :: rest) := by
      cases h : allocOf ir <;> simp [allocList, List.filterMap_cons, h]
    simp only [List.cons_append, killsWF, List.append_eq, ih, Bool.and_assoc]
    rw [hal]

theorem killsWF_mono (l : List IR) : ∀ a b : List Nat, (∀ x ∈ a, x ∈ b) →
    killsWF a l = true → killsWF b l = true := by
  induction l with
  | nil => intro a b _ _; rfl
  | cons ir rest ih =>
    intro a b hab h
    simp only [killsWF, Bool.and_eq_true] at h ⊢
    refine ⟨?_, ih _ _ ?_ h.2⟩
    · rcases h with ⟨h1, -⟩
      cases hop : ir.op <;> cases hlhs : ir.lhs <;>
        simp_all
    · intro x hx
      rcases List.mem_append.1 hx with hx | hx
      · exact List.mem_append.2 (Or.inl (hab x hx))
      · exact List.mem_append.2 (Or.inr hx)

theorem jumpTargetOk_mono (ir : IR) (rest more : List IR) (h : jumpTargetOk ir rest = true) :
    jumpTargetOk ir (rest ++ more) = true := by
  cases hop : ir.op <;> cases hlhs : ir.lhs <;> cases hrhs : ir.rhs <;>
    simp_all [jumpTargetOk, labelDefs_append]

theorem jumpsWF_append (a b : List IR) (ha : jumpsWF a = true) (hb : jumpsWF b = true) :
    jumpsWF (a ++ b) = true := by
  induction a with
  | nil => simpa using hb
  | cons ir rest ih =>
    simp only [jumpsWF, Bool.and_eq_true] at ha
    simp only [List.cons_append, jumpsWF, Bool.and_eq_true]
    exact ⟨jumpTargetOk_mono ir rest b ha.1, ih ha.2⟩

theorem jumpsWF_of_noJumps (a : List IR) (h : ∀ ir ∈ a, isJump ir = false) :
    jumpsWF a = true := by
  induction a with
  | nil => rfl
  | cons ir rest ih =>
    simp only [jumpsWF, Bool.and_eq_true]
    constructor
    · have := h ir (List.mem_cons_self ir rest)
      cases hop : ir.op <;> simp_all [isJump, jumpTargetOk]
    · exact ih (fun x hx => h x (List.mem_cons_of_mem ir hx))

theorem gen_lval_inv (nd : Node) (st : GenState) (code : List IR) (st' : GenState)
    (code' : List IR) (r : Nat) (h : gen_lval st code nd = Option.some (st', code', r)) :
    r = st.regno ∧ st'.regno = st.regno + 1 ∧ st'.label = st.label ∧
    ∃ off, code' = code ++ [⟨.Mov, Option.some r, Option.some 0⟩,
      ⟨.SubImm, Option.some r, Option.some off⟩] := by
  cases nd <;> simp only [gen_lval] at h
  case Ident name =>
    rcases hq : st.vars.lookup name with _ | off0 <;> simp [hq] at h <;>
      obtain ⟨h1, h2, h3⟩ := h <;> subst h1 <;> subst h2 <;> subst h3 <;>
      exact ⟨rfl, rfl, rfl, _, rfl⟩
  all_goals exact absurd h (by simp)

/-- Registers in a list are all members of `allocList d` when `allocList d`
is a register range covering them. -/
theorem mem_allocList_of_range (d : List IR) (lo n q : Nat)
    (ha : allocList d = List.range' lo n) (h1 : lo ≤ q) (h2 : q < lo + n) :
    q ∈ allocList d := by
  rw [ha, List.mem_range'_1]
  omega

theorem EmitOk.compose {lo m n : Nat} {d1 d2 : List IR}
    (h1 : EmitOk lo m d1) (h2 : EmitOk (lo + m) n d2) : EmitOk lo (m + n) (d1 ++ d2) := by
  obtain ⟨a1, k1, l1, j1, p1⟩ := h1
  obtain ⟨a2, k2, l2, j2, p2⟩ := h2
  refine ⟨?_, ?_, ?_, ?_, ?_⟩
  · rw [allocList_append, a1, a2, List.range'_append_1, Nat.add_comm n m]
  · rw [killsWF_append, Bool.and_eq_true]
    exact ⟨k1, killsWF_mono d2 [] ([] ++ allocList d1) (by simp) k2⟩
  · rw [labelDefs_append, l1, l2]; rfl
  · intro ir hir
    rcases List.mem_append.1 hir with hm | hm
    · exact j1 ir hm
    · exact j2 ir hm
  · intro ir hir
    rcases List.mem_append.1 hir with hm | hm
    · exact p1 ir hm
    · exact p2 ir hm

theorem EmitOk.cast {lo n lo2 n2 : Nat} {d : List IR} (h : EmitOk lo n d)
    (h1 : lo = lo2) (h2 : n = n2) : EmitOk lo2 n2 d := h1 ▸ h2 ▸ h

/-- Appending a tail of instructions that allocate nothing, define no label,
are not branches, render totally, and whose kills all name registers
allocated in `d`. -/
theorem EmitOk.tail {lo n : Nat} {d t : List IR} (h1 : EmitOk lo n d)
    (ta : ∀ ir ∈ t, allocOf ir = Option.none)
    (tl : ∀ ir ∈ t, labelOf ir = Option.none)
    (tj : ∀ ir ∈ t, isJump ir = false)
    (tp : ∀ ir ∈ t, (displayIR ir).isSome = true)
    (tk : killsWF (allocList d) t = true) : EmitOk lo n (d ++ t) := by
  obtain ⟨a1, k1, l1, j1, p1⟩ := h1
  have hta : allocList t = [] := by
    simp only [allocList, List.filterMap_eq_nil_iff]
    exact ta
  have htl : labelDefs t = [] := by
    simp only [labelDefs, List.filterMap_eq_nil_iff]
    exact tl
  refine ⟨?_, ?_, ?_, ?_, ?_⟩
  · rw [allocList_append, a1, hta, List.append_nil]
  · rw [killsWF_append, Bool.and_eq_true]
    exact ⟨k1, killsWF_mono t (allocList d) ([] ++ allocList d) (by simp) tk⟩
  · rw [labelDefs_append, l1, htl]; rfl
  · intro ir hir
    rcases List.mem_append.1 hir with hm | hm
    · exact j1 ir hm
    · exact tj ir hm
  · intro ir hir
    rcases List.mem_append.1 hir with hm | hm
    · exact p1 ir hm
    · exact tp ir hm

/-- A block of kills of registers that are all available is well formed. -/
theorem killsWF_kills (regs : List Nat) : ∀ avail : List Nat, (∀ q ∈ regs, q ∈ avail) →
    killsWF avail (regs.map fun q => ⟨.Kill, Option.some q, Option.none⟩) = true := by
  induction regs with
  | nil => intro avail _; rfl
  | cons q rest ih =>
    intro avail hq
    simp only [List.map_cons, killsWF, Bool.and_eq_true]
    constructor
    · simpa using hq q (List.mem_cons_self q rest)
    · exact killsWF_mono _ avail _ (fun x hx => List.mem_append.2 (Or.inl hx))
        (ih avail fun x hx => hq x (List.mem_cons_of_mem q hx))

mutual
theorem gen_expr_inv (nd : Node) : ∀ (st : GenState) (code : List IR) (st2 : GenState)
    (code2 : List IR) (r : Nat), gen_expr st code nd = Option.some (st2, code2, r) →
    ∃ d, code2 = code ++ d ∧ ExprOut st d st2 r := by
  intro st code st2 code2 r h
  cases nd with
  | Num val =>
    simp only [gen_expr, Option.some.injEq, Prod.mk.injEq] at h
    obtain ⟨h1, h2, h3⟩ := h
    subst h1; subst h2; subst h3
    refine ⟨_, rfl, Nat.le_succ _, Nat.le_refl _, Nat.lt_succ_self _, rfl, ?_, ?_, rfl, ?_, ?_⟩
    · show allocList _ = List.range' st.regno (st.regno + 1 - st.regno)
      simp [allocList, allocOf]
    · rfl
    · intro ir hir; simp at hir; subst hir; rfl
    · intro ir hir; simp at hir; subst hir; rfl
  | Ident name =>
    simp only [gen_expr] at h
    rcases hg : gen_lval st code (.Ident name) with _ | ⟨st1, c1, r1⟩ <;> rw [hg] at h
    · simp at h
    · simp only [Option.bind_eq_bind, Option.some_bind, Option.some.injEq, Prod.mk.injEq] at h
      obtain ⟨h1, h2, h3⟩ := h
      subst h1; subst h2; subst h3
      obtain ⟨hr, hreg, hlab, off, hc⟩ := gen_lval_inv _ _ _ _ _ _ hg
      subst hc; subst hr
      refine ⟨[⟨.Mov, Option.some st.regno, Option.some 0⟩,
        ⟨.SubImm, Option.some st.regno, Option.some off⟩,
        ⟨.Load, Option.some st.regno, Option.some st.regno⟩],
        by simp, Nat.le_of_lt (by omega), Nat.le_refl _, by omega, hlab, ?_, ?_, rfl,
        ?_, ?_⟩
      · show allocList _ = List.range' st.regno (st1.regno - st.regno)
        rw [hreg]
        simp [allocList, allocOf]
      · rfl
      · intro ir hir; simp at hir
        rcases hir with hir | hir | hir <;> subst hir <;> rfl
      · intro ir hir; simp at hir
        rcases hir with hir | hir | hir <;> subst hir <;> rfl
  | Call name args =>
    simp only [gen_expr] at h
    rcases hg : gen_expr_args st code 0 args with _ | ⟨st1, c1, regs⟩ <;> rw [hg] at h
    · simp at h
    · simp only [Option.bind_eq_bind, Option.some_bind, Option.some.injEq, Prod.mk.injEq] at h
      obtain ⟨h1, h2, h3⟩ := h
      subst h1; subst h2; subst h3
      obtain ⟨d1, hc1, hmono, hlab, hbounds, hpw, hemit, hlen⟩ :=
        gen_expr_args_inv args st code st1 c1 regs 0 hg
      subst hc1
      have hcallOk :
          EmitOk st1.regno 1 [⟨.Call name args.length (regs ++ List.replicate (6 - regs.length) 0),
            Option.some st1.regno, Option.none⟩] := by
        refine ⟨by simp [allocList, allocOf], rfl, rfl, ?_, ?_⟩
        · intro ir hir; simp at hir; subst hir; rfl
        · intro ir hir; simp at hir; subst hir
          have hcond : NodeList.length args ≤ regs.length + (6 - regs.length) := by omega
          simp [displayIR, get_irinfo, hcond]
      have hcomp := hemit.compose (hcallOk.cast (by omega) rfl)
      have hkt : killsWF (allocList (d1 ++ [⟨.Call name args.length
          (regs ++ List.replicate (6 - regs.length) 0), Option.some st1.regno, Option.none⟩]))
          (regs.map fun q => ⟨.Kill, Option.some q, Option.none⟩) = true := by
        refine killsWF_kills regs _ fun q hq => ?_
        rw [allocList_append]
        refine List.mem_append.2 (Or.inl ?_)
        obtain ⟨hq1, hq2⟩ := hbounds q hq
        exact mem_allocList_of_range d1 st.regno (st1.regno - st.regno) q hemit.1 hq1 (by omega)
      have htail := hcomp.tail (t := regs.map fun q => ⟨.Kill, Option.some q, Option.none⟩)
        (by intro ir hir; simp at hir; obtain ⟨q, _, hq⟩ := hir; subst hq; rfl)
        (by intro ir hir; simp at hir; obtain ⟨q, _, hq⟩ := hir; subst hq; rfl)
        (by intro ir hir; simp at hir; obtain ⟨q, _, hq⟩ := hir; subst hq; rfl)
        (by intro ir hir; simp at hir; obtain ⟨q, _, hq⟩ := hir; subst hq; rfl)
        hkt
      have hceq : code ++ d1 ++ [⟨.Call name args.length
          (regs ++ List.replicate (6 - regs.length) 0), Option.some st1.regno, Option.none⟩] ++
          (regs.map fun q => (⟨.Kill, Option.some q, Option.none⟩ : IR)) =
          code ++ (d1 ++ [⟨.Call name args.length (regs ++ List.replicate (6 - regs.length) 0),
          Option.some st1.regno, Option.none⟩] ++
          regs.map fun q => (⟨.Kill, Option.some q, Option.none⟩ : IR)) := by
        simp
      refine ⟨_, hceq, ?_, ?_, ?_, ?_, ?_⟩
      · show st.regno ≤ st1.regno + 1
        omega
      · show st.regno ≤ st1.regno
        omega
      · show st1.regno < st1.regno + 1
        omega
      · show st1.label = st.label
        exact hlab
      · show EmitOk st.regno (st1.regno + 1 - st.regno) _
        exact htail.cast rfl (by omega)
  | BinOp op l rterm =>
    cases op
    case Equal =>
      simp only [gen_expr] at h
      rcases hg1 : gen_expr st code rterm with _ | ⟨st1, c1, v⟩ <;> rw [hg1] at h
      · simp at h
      · simp only [Option.bind_eq_bind, Option.some_bind] at h
        rcases hg2 : gen_lval st1 c1 l with _ | ⟨stl, c2, a⟩ <;> rw [hg2] at h
        · simp at h
        · simp only [Option.some_bind, Option.some.injEq, Prod.mk.injEq] at h
          obtain ⟨h1, h2, h3⟩ := h
          subst h1; subst h2; subst h3
          obtain ⟨d1, hc1, hm1, hv1, hv2, hlab1, hemit1⟩ := gen_expr_inv rterm st code st1 c1 v hg1
          subst hc1
          obtain ⟨ha, hreg, hlab2, off, hc⟩ := gen_lval_inv _ _ _ _ _ _ hg2
          subst hc; subst ha
          have hlvalOk : EmitOk st1.regno 1 [⟨.Mov, Option.some st1.regno, Option.some 0⟩,
              ⟨.SubImm, Option.some st1.regno, Option.some off⟩] := by
            refine ⟨by simp [allocList, allocOf], rfl, rfl, ?_, ?_⟩
            · intro ir hir; simp at hir
              rcases hir with hir | hir <;> subst hir <;> rfl
            · intro ir hir; simp at hir
              rcases hir with hir | hir <;> subst hir <;> rfl
          have hcomp := hemit1.compose (hlvalOk.cast (by omega) rfl)
          have hkt : killsWF (allocList (d1 ++ [⟨.Mov, Option.some st1.regno, Option.some 0⟩,
              ⟨.SubImm, Option.some st1.regno, Option.some off⟩]))
              [⟨.Store, Option.some st1.regno, Option.some v⟩,
               ⟨.Kill, Option.some v, Option.none⟩] = true := by
            have hv : v ∈ allocList d1 :=
              mem_allocList_of_range d1 st.regno (st1.regno - st.regno) v hemit1.1 hv1 (by omega)
            simp [killsWF, allocOf, allocList_append, allocList]
            refine Or.inl ?_
            have hx := List.mem_filterMap.1 (by simpa [allocList] using hv)
            simpa [allocOf] using hx
          have htail := hcomp.tail (t := [⟨.Store, Option.some st1.regno, Option.some v⟩,
              ⟨.Kill, Option.some v, Option.none⟩])
            (by intro ir hir; simp at hir; rcases hir with hir | hir <;> subst hir <;> rfl)
            (by intro ir hir; simp at hir; rcases hir with hir | hir <;> subst hir <;> rfl)
            (by intro ir hir; simp at hir; rcases hir with hir | hir <;> subst hir <;> rfl)
            (by intro ir hir; simp at hir; rcases hir with hir | hir <;> subst hir <;> rfl)
            hkt
          refine ⟨d1 ++ [⟨.Mov, Option.some st1.regno, Option.some 0⟩,
              ⟨.SubImm, Option.some st1.regno, Option.some off⟩] ++
              [⟨.Store, Option.some st1.regno, Option.some v⟩,
               ⟨.Kill, Option.some v, Option.none⟩], by simp, by omega, by omega, by omega,
            by rw [hlab2, hlab1], ?_⟩
          show EmitOk st.regno (stl.regno - st.regno) _
          exact htail.cast rfl (by omega)
    case Plus =>
      simp only [gen_expr, iropOfToken] at h
      rcases hg1 : gen_expr st code l with _ | ⟨st1, c1, lv⟩ <;> rw [hg1] at h
      · simp at h
      · simp only [Option.bind_eq_bind, Option.some_bind] at h
        rcases hg2 : gen_expr st1 c1 rterm with _ | ⟨stx, c2, rv⟩ <;> rw [hg2] at h
        · simp at h
        · simp only [Option.some_bind, Option.some.injEq, Prod.mk.injEq] at h
          obtain ⟨h1, h2, h3⟩ := h
          subst h1; subst h2; subst h3
          obtain ⟨d1, hc1, hm1, hlv1, hlv2, hlab1, hemit1⟩ := gen_expr_inv l st code st1 c1 lv hg1
          subst hc1
          obtain ⟨d2, hc2, hm2, hrv1, hrv2, hlab2, hemit2⟩ :=
            gen_expr_inv rterm st1 (code ++ d1) stx c2 rv hg2
          subst hc2
          have hseg := hemit1.compose (hemit2.cast (by omega) rfl)
          have hkt : killsWF (allocList (d1 ++ d2)) [⟨.Add, Option.some lv, Option.some rv⟩,
              ⟨.Kill, Option.some rv, Option.none⟩] = true := by
            have hrv : rv ∈ allocList d2 :=
              mem_allocList_of_range d2 st1.regno (stx.regno - st1.regno) rv hemit2.1 hrv1
                (by omega)
            simp [killsWF, allocOf, allocList_append, allocList]
            refine Or.inr ?_
            have hx := List.mem_filterMap.1 (by simpa [allocList] using hrv)
            simpa [allocOf] using hx
          have htail := hseg.tail (t := [⟨.Add, Option.some lv, Option.some rv⟩,
              ⟨.Kill, Option.some rv, Option.none⟩])
            (by intro ir hir; simp at hir; rcases hir with hir | hir <;> subst hir <;> rfl)
            (by intro ir hir; simp at hir; rcases hir with hir | hir <;> subst hir <;> rfl)
            (by intro ir hir; simp at hir; rcases hir with hir | hir <;> subst hir <;> rfl)
            (by intro ir hir; simp at hir; rcases hir with hir | hir <;> subst hir <;> rfl)
            hkt
          refine ⟨d1 ++ d2 ++ [⟨.Add, Option.some lv, Option.some rv⟩,
              ⟨.Kill, Option.some rv, Option.none⟩], by simp, by omega, by omega, by omega,
            by rw [hlab2, hlab1], ?_⟩
          show EmitOk st.regno (stx.regno - st.regno) _
          exact htail.cast rfl (by omega)
    case Minus =>
      simp only [gen_expr, iropOfToken] at h
      rcases hg1 : gen_expr st code l with _ | ⟨st1, c1, lv⟩ <;> rw [hg1] at h
      · simp at h
      · simp only [Option.bind_eq_bind, Option.some_bind] at h
        rcases hg2 : gen_expr st1 c1 rterm with _ | ⟨stx, c2, rv⟩ <;> rw [hg2] at h
        · simp at h
        · simp only [Option.some_bind, Option.some.injEq, Prod.mk.injEq] at h
          obtain ⟨h1, h2, h3⟩ := h
          subst h1; subst h2; subst h3
          obtain ⟨d1, hc1, hm1, hlv1, hlv2, hlab1, hemit1⟩ := gen_expr_inv l st code st1 c1 lv hg1
          subst hc1
          obtain ⟨d2, hc2, hm2, hrv1, hrv2, hlab2, hemit2⟩ :=
            gen_expr_inv rterm st1 (code ++ d1) stx c2 rv hg2
          subst hc2
          have hseg := hemit1.compose (hemit2.cast (by omega) rfl)
          have hkt : killsWF (allocList (d1 ++ d2)) [⟨.Sub, Option.some lv, Option.some rv⟩,
              ⟨.Kill, Option.some rv, Option.none⟩] = true := by
            have hrv : rv ∈ allocList d2 :=
              mem_allocList_of_range d2 st1.regno (stx.regno - st1.regno) rv hemit2.1 hrv1
                (by omega)
            simp [killsWF, allocOf, allocList_append, allocList]
            refine Or.inr ?_
            have hx := List.mem_filterMap.1 (by simpa [allocList] using hrv)
            simpa [allocOf] using hx
          have htail := hseg.tail (t := [⟨.Sub, Option.some lv, Option.some rv⟩,
              ⟨.Kill, Option.some rv, Option.none⟩])
            (by intro ir hir; simp at hir; rcases hir with hir | hir <;> subst hir <;> rfl)
            (by intro ir hir; simp at hir; rcases hir with hir | hir <;> subst hir <;> rfl)
            (by intro ir hir; simp at hir; rcases hir with hir | hir <;> subst hir <;> rfl)
            (by intro ir hir; simp at hir; rcases hir with hir | hir <;> subst hir <;> rfl)
            hkt
          refine ⟨d1 ++ d2 ++ [⟨.Sub, Option.some lv, Option.some rv⟩,
              ⟨.Kill, Option.some rv, Option.none⟩], by simp, by omega, by omega, by omega,
            by rw [hlab2, hlab1], ?_⟩
          show EmitOk st.regno (stx.regno - st.regno) _
          exact htail.cast rfl (by omega)
    case Mul =>
      simp only [gen_expr, iropOfToken] at h
      rcases hg1 : gen_expr st code l with _ | ⟨st1, c1, lv⟩ <;> rw [hg1] at h
      · simp at h
      · simp only [Option.bind_eq_bind, Option.some_bind] at h
        rcases hg2 : gen_expr st1 c1 rterm with _ | ⟨stx, c2, rv⟩ <;> rw [hg2] at h
        · simp at h
        · simp only [Option.some_bind, Option.some.injEq, Prod.mk.injEq] at h
          obtain ⟨h1, h2, h3⟩ := h
          subst h1; subst h2; subst h3
          obtain ⟨d1, hc1, hm1, hlv1, hlv2, hlab1, hemit1⟩ := gen_expr_inv l st code st1 c1 lv hg1
          subst hc1
          obtain ⟨d2, hc2, hm2, hrv1, hrv2, hlab2, hemit2⟩ :=
            gen_expr_inv rterm st1 (code ++ d1) stx c2 rv hg2
          subst hc2
          have hseg := hemit1.compose (hemit2.cast (by omega) rfl)
          have hkt : killsWF (allocList (d1 ++ d2)) [⟨.Mul, Option.some lv, Option.some rv⟩,
              ⟨.Kill, Option.some rv, Option.none⟩] = true := by
            have hrv : rv ∈ allocList d2 :=
              mem_allocList_of_range d2 st1.regno (stx.regno - st1.regno) rv hemit2.1 hrv1
                (by omega)
            simp [killsWF, allocOf, allocList_append, allocList]
            refine Or.inr ?_
            have hx := List.mem_filterMap.1 (by simpa [allocList] using hrv)
            simpa [allocOf] using hx
          have htail := hseg.tail (t := [⟨.Mul, Option.some lv, Option.some rv⟩,
              ⟨.Kill, Option.some rv, Option.none⟩])
            (by intro ir hir; simp at hir; rcases hir with hir | hir <;> subst hir <;> rfl)
            (by intro ir hir; simp at hir; rcases hir with hir | hir <;> subst hir <;> rfl)
            (by intro ir hir; simp at hir; rcases hir with hir | hir <;> subst hir <;> rfl)
            (by intro ir hir; simp at hir; rcases hir with hir | hir <;> subst hir <;> rfl)
            hkt
          refine ⟨d1 ++ d2 ++ [⟨.Mul, Option.some lv, Option.some rv⟩,
              ⟨.Kill, Option.some rv, Option.none⟩], by simp, by omega, by omega, by omega,
            by rw [hlab2, hlab1], ?_⟩
          show EmitOk st.regno (stx.regno - st.regno) _
          exact htail.cast rfl (by omega)
    case Div =>
      simp only [gen_expr, iropOfToken] at h
      rcases hg1 : gen_expr st code l with _ | ⟨st1, c1, lv⟩ <;> rw [hg1] at h
      · simp at h
      · simp only [Option.bind_eq_bind, Option.some_bind] at h
        rcases hg2 : gen_expr st1 c1 rterm with _ | ⟨stx, c2, rv⟩ <;> rw [hg2] at h
        · simp at h
        · simp only [Option.some_bind, Option.some.injEq, Prod.mk.injEq] at h
          obtain ⟨h1, h2, h3⟩ := h
          subst h1; subst h2; subst h3
          obtain ⟨d1, hc1, hm1, hlv1, hlv2, hlab1, hemit1⟩ := gen_expr_inv l st code st1 c1 lv hg1
          subst hc1
          obtain ⟨d2, hc2, hm2, hrv1, hrv2, hlab2, hemit2⟩ :=
            gen_expr_inv rterm st1 (code ++ d1) stx c2 rv hg2
          subst hc2
          have hseg := hemit1.compose (hemit2.cast (by omega) rfl)
          have hkt : killsWF (allocList (d1 ++ d2)) [⟨.Div, Option.some lv, Option.some rv⟩,
              ⟨.Kill, Option.some rv, Option.none⟩] = true := by
            have hrv : rv ∈ allocList d2 :=
              mem_allocList_of_range d2 st1.regno (stx.regno - st1.regno) rv hemit2.1 hrv1
                (by omega)
            simp [killsWF, allocOf, allocList_append, allocList]
            refine Or.inr ?_
            have hx := List.mem_filterMap.1 (by simpa [allocList] using hrv)
            simpa [allocOf] using hx
          have htail := hseg.tail (t := [⟨.Div, Option.some lv, Option.some rv⟩,
              ⟨.Kill, Option.some rv, Option.none⟩])
            (by intro ir hir; simp at hir; rcases hir with hir | hir <;> subst hir <;> rfl)
            (by intro ir hir; simp at hir; rcases hir with hir | hir <;> subst hir <;> rfl)
            (by intro ir hir; simp at hir; rcases hir with hir | hir <;> subst hir <;> rfl)
            (by intro ir hir; simp at hir; rcases hir with hir | hir <;> subst hir <;> rfl)
            hkt
          refine ⟨d1 ++ d2 ++ [⟨.Div, Option.some lv, Option.some rv⟩,
              ⟨.Kill, Option.some rv, Option.none⟩], by simp, by omega, by omega, by omega,
            by rw [hlab2, hlab1], ?_⟩
          show EmitOk st.regno (stx.regno - st.regno) _
          exact htail.cast rfl (by omega)
  | If c t e => simp [gen_expr] at h
  | Return e => simp [gen_expr] at h
  | ExprStmt e => simp [gen_expr] at h
  | CompStmt s => simp [gen_expr] at h
  | Func n a b => simp [gen_expr] at h

theorem gen_expr_args_inv (l : NodeList) : ∀ (st : GenState) (code : List IR) (st2 : GenState)
    (code2 : List IR) (regs : List Nat) (i : Nat),
    gen_expr_args st code i l = Option.some (st2, code2, regs) →
    ∃ d, code2 = code ++ d ∧ st.regno ≤ st2.regno ∧ st2.label = st.label ∧
      (∀ q ∈ regs, st.regno ≤ q ∧ q < st2.regno) ∧ List.Pairwise (· < ·) regs ∧
      EmitOk st.regno (st2.regno - st.regno) d ∧ regs.length = l.length := by
  intro st code st2 code2 regs i h
  cases l with
  | nil =>
    simp only [gen_expr_args, Option.some.injEq, Prod.mk.injEq] at h
    obtain ⟨h1, h2, h3⟩ := h
    subst h1; subst h2; subst h3
    exact ⟨[], by simp, Nat.le_refl _, rfl, by simp, by simp,
      ⟨by simp [allocList], rfl, rfl, by simp, by simp⟩, rfl⟩
  | cons a rest =>
    simp only [gen_expr_args] at h
    rcases hg1 : gen_expr st code a with _ | ⟨st1, c1, r1⟩ <;> rw [hg1] at h
    · simp at h
    · simp only [Option.bind_eq_bind, Option.some_bind] at h
      by_cases hi : i < 6
      · rw [if_pos hi] at h
        rcases hg2 : gen_expr_args st1 c1 (i + 1) rest with _ | ⟨stx, c2, rs⟩ <;> rw [hg2] at h
        · simp at h
        · simp only [Option.bind_eq_bind, Option.some_bind, Option.some.injEq,
            Prod.mk.injEq] at h
          obtain ⟨h1, h2, h3⟩ := h
          subst h1; subst h2; subst h3
          obtain ⟨d1, hc1, hm1, hr1, hr2, hlab1, hemit1⟩ := gen_expr_inv a st code st1 c1 r1 hg1
          subst hc1
          obtain ⟨d2, hc2, hm2, hlab2, hbnd2, hpw2, hemit2, hlen2⟩ :=
            gen_expr_args_inv rest st1 (code ++ d1) stx c2 rs (i + 1) hg2
          subst hc2
          have hseg := hemit1.compose (hemit2.cast (by omega) rfl)
          refine ⟨d1 ++ d2, by rw [List.append_assoc], by omega, by rw [hlab2, hlab1], ?_, ?_,
            ?_, by simp [NodeList.length, hlen2, Nat.add_comm]⟩
          · intro q hq
            rcases List.mem_cons.1 hq with hq | hq
            · subst hq; exact ⟨hr1, by omega⟩
            · obtain ⟨hb1, hb2⟩ := hbnd2 q hq
              exact ⟨by omega, hb2⟩
          · refine List.pairwise_cons.2 ⟨?_, hpw2⟩
            intro q hq
            obtain ⟨hb1, _⟩ := hbnd2 q hq
            omega
          · show EmitOk st.regno (stx.regno - st.regno) _
            have : stx.regno - st.regno = (st1.regno - st.regno) + (stx.regno - st1.regno) := by
              omega
            rw [this]
            exact hseg
      · rw [if_neg hi] at h
        simp at h
end

/-- A statement segment built from an expression segment plus a jump-free,
label-free, allocation-free tail whose kills are covered by the expression's
allocations. -/
theorem stmtOut_of_expr_tail {st st1 : GenState} {d1 t : List IR} {r : Nat}
    (hexpr : ExprOut st d1 st1 r)
    (ta : ∀ ir ∈ t, allocOf ir = Option.none)
    (tl : ∀ ir ∈ t, labelOf ir = Option.none)
    (tj : ∀ ir ∈ t, isJump ir = false)
    (tp : ∀ ir ∈ t, (displayIR ir).isSome = true)
    (tk : killsWF (allocList d1) t = true) :
    StmtOut st (d1 ++ t) st1 := by
  obtain ⟨hm, _, _, hlab, hemit⟩ := hexpr
  have hms := hemit.tail ta tl tj tp tk
  obtain ⟨ha, hk, hl, hj, hp⟩ := hms
  refine ⟨hm, by omega, ha, hk, ?_, ?_, ?_, hp⟩
  · intro x hx
    rw [hl] at hx
    simp at hx
  · rw [hl]
    exact List.nodup_nil
  · refine jumpsWF_of_noJumps _ ?_
    intro ir hir
    rcases List.mem_append.1 hir with hm1 | hm1
    · exact (hemit.2.2.2.1) ir hm1
    · exact tj ir hm1

theorem range'_glue (a b c : Nat) (h1 : a ≤ b) (h2 : b ≤ c) :
    List.range' a (b - a) ++ List.range' b (c - b) = List.range' a (c - a) := by
  have h3 : List.range' b (c - b) = List.range' (a + (b - a)) (c - b) := by
    congr 1
    omega
  rw [h3, List.range'_append_1]
  congr 1
  omega

theorem StmtOut.seqComp {st1 st2 st3 : GenState} {d1 d2 : List IR}
    (h1 : StmtOut st1 d1 st2) (h2 : StmtOut st2 d2 st3) : StmtOut st1 (d1 ++ d2) st3 := by
  obtain ⟨m1, n1, a1, k1, b1, nd1, j1, p1⟩ := h1
  obtain ⟨m2, n2, a2, k2, b2, nd2, j2, p2⟩ := h2
  refine ⟨by omega, by omega, ?_, ?_, ?_, ?_, ?_, ?_⟩
  · rw [allocList_append, a1, a2, range'_glue _ _ _ m1 m2]
  · rw [killsWF_append, Bool.and_eq_true]
    exact ⟨k1, killsWF_mono d2 [] ([] ++ allocList d1) (by simp) k2⟩
  · intro x hx
    rw [labelDefs_append] at hx
    rcases List.mem_append.1 hx with hm | hm
    · obtain ⟨u, v⟩ := b1 x hm
      exact ⟨by omega, by omega⟩
    · obtain ⟨u, v⟩ := b2 x hm
      exact ⟨by omega, by omega⟩
  · rw [labelDefs_append, List.nodup_append]
    refine ⟨nd1, nd2, ?_⟩
    intro a ha hb
    obtain ⟨u1, v1⟩ := b1 a ha
    obtain ⟨u2, v2⟩ := b2 a hb
    omega
  · exact jumpsWF_append _ _ j1 j2
  · intro ir hir
    rcases List.mem_append.1 hir with hm | hm
    · exact p1 ir hm
    · exact p2 ir hm

theorem stmtOut_nil (st : GenState) : StmtOut st [] st := by
  refine ⟨Nat.le_refl _, Nat.le_refl _, by simp [allocList], rfl, ?_, ?_, rfl, ?_⟩
  · intro x hx; simp [labelDefs] at hx
  · simp [labelDefs]
  · intro ir hir; simp at hir

mutual
theorem gen_stmt_inv (nd : Node) : ∀ (st : GenState) (code : List IR) (st2 : GenState)
    (code2 : List IR), gen_stmt st code nd = Option.some (st2, code2) →
    ∃ d, code2 = code ++ d ∧ StmtOut st d st2 := by
  intro st code st2 code2 h
  cases nd with
  | Return e =>
    simp only [gen_stmt] at h
    rcases hg : gen_expr st code e with _ | ⟨st1, c1, r⟩ <;> rw [hg] at h
    · simp at h
    · simp only [Option.bind_eq_bind, Option.some_bind, Option.some.injEq, Prod.mk.injEq] at h
      obtain ⟨h1, h2⟩ := h
      subst h1; subst h2
      obtain ⟨d1, hc1, hexpr⟩ := gen_expr_inv e st code st1 c1 r hg
      subst hc1
      refine ⟨d1 ++ [⟨.Return, Option.some r, Option.none⟩,
        ⟨.Kill, Option.some r, Option.none⟩], by simp, ?_⟩
      refine stmtOut_of_expr_tail hexpr ?_ ?_ ?_ ?_ ?_
      · intro ir hir; simp at hir; rcases hir with hir | hir <;> subst hir <;> rfl
      · intro ir hir; simp at hir; rcases hir with hir | hir <;> subst hir <;> rfl
      · intro ir hir; simp at hir; rcases hir with hir | hir <;> subst hir <;> rfl
      · intro ir hir; simp at hir; rcases hir with hir | hir <;> subst hir <;> rfl
      · have hr : r ∈ allocList d1 := mem_allocList_of_range d1 st.regno
          (st1.regno - st.regno) r hexpr.2.2.2.2.1 hexpr.2.1 (by
            have := hexpr.1
            have := hexpr.2.2.1
            omega)
        simp [killsWF, allocOf, hr]
  | ExprStmt e =>
    simp only [gen_stmt] at h
    rcases hg : gen_expr st code e with _ | ⟨st1, c1, r⟩ <;> rw [hg] at h
    · simp at h
    · simp only [Option.bind_eq_bind, Option.some_bind, Option.some.injEq, Prod.mk.injEq] at h
      obtain ⟨h1, h2⟩ := h
      subst h1; subst h2
      obtain ⟨d1, hc1, hexpr⟩ := gen_expr_inv e st code st1 c1 r hg
      subst hc1
      refine ⟨d1 ++ [⟨.Kill, Option.some r, Option.none⟩], by simp, ?_⟩
      refine stmtOut_of_expr_tail hexpr ?_ ?_ ?_ ?_ ?_
      · intro ir hir; simp at hir; subst hir; rfl
      · intro ir hir; simp at hir; subst hir; rfl
      · intro ir hir; simp at hir; subst hir; rfl
      · intro ir hir; simp at hir; subst hir; rfl
      · have hr : r ∈ allocList d1 := mem_allocList_of_range d1 st.regno
          (st1.regno - st.regno) r hexpr.2.2.2.2.1 hexpr.2.1 (by
            have := hexpr.1
            have := hexpr.2.2.1
            omega)
        simp [killsWF, allocOf, hr]
  | CompStmt stmts =>
    simp only [gen_stmt] at h
    exact gen_stmt_list_inv stmts st code st2 code2 h
  | If c t e =>
    cases e with
    | none =>
      simp only [gen_stmt] at h
      rcases hg1 : gen_expr st code c with _ | ⟨st1, c1, r⟩ <;> rw [hg1] at h
      · simp at h
      · simp only [Option.bind_eq_bind, Option.some_bind] at h
        rcases hg2 : gen_stmt { st1 with label := st1.label + 1 }
            (c1 ++ [⟨.Unless, Option.some r, Option.some st1.label⟩,
              ⟨.Kill, Option.some r, Option.none⟩]) t with _ | ⟨st3, c3⟩ <;> rw [hg2] at h
        · simp at h
        · simp only [Option.some_bind, Option.some.injEq, Prod.mk.injEq] at h
          obtain ⟨h1, h2⟩ := h
          subst h1; subst h2
          obtain ⟨d1, hc1, hexpr⟩ := gen_expr_inv c st code st1 c1 r hg1
          subst hc1
          obtain ⟨hm1, hr1, hr2, hlab1, hemit1⟩ := hexpr
          obtain ⟨dt, hct, hst⟩ := gen_stmt_inv t _ _ _ _ hg2
          subst hct
          obtain ⟨hmt, hnt, hat, hkt, hbt, hndt, hjt, hpt⟩ := hst
          have hmt' : st1.regno ≤ st3.regno := hmt
          have hnt' : st1.label + 1 ≤ st3.label := hnt
          have hat' : allocList dt = List.range' st1.regno (st3.regno - st1.regno) := hat
          have hbt' : ∀ x ∈ labelDefs dt, st1.label + 1 ≤ x ∧ x < st3.label := hbt
          have hrmem : r ∈ allocList d1 := mem_allocList_of_range d1 st.regno
            (st1.regno - st.regno) r hemit1.1 hr1 (by omega)
          refine ⟨d1 ++ ([⟨.Unless, Option.some r, Option.some st1.label⟩,
            ⟨.Kill, Option.some r, Option.none⟩] ++
            (dt ++ [⟨.Label, Option.some st1.label, Option.none⟩])), by simp, ?_⟩
          have hlA : labelDefs (d1 ++ ([⟨.Unless, Option.some r, Option.some st1.label⟩,
              ⟨.Kill, Option.some r, Option.none⟩] ++
              (dt ++ [⟨.Label, Option.some st1.label, Option.none⟩]))) =
              labelDefs dt ++ [st1.label] := by
            rw [labelDefs_append, labelDefs_append, labelDefs_append, hemit1.2.2.1]
            simp only [show labelDefs [⟨.Unless, Option.some r, Option.some st1.label⟩,
              ⟨.Kill, Option.some r, Option.none⟩] = [] from rfl,
              show labelDefs [⟨.Label, Option.some st1.label, Option.none⟩] = [st1.label]
                from rfl, List.nil_append]
          refine ⟨by omega, by omega, ?_, ?_, ?_, ?_, ?_, ?_⟩
          · rw [allocList_append, allocList_append, allocList_append]
            simp only [show allocList [⟨.Unless, Option.some r, Option.some st1.label⟩,
              ⟨.Kill, Option.some r, Option.none⟩] = [] from rfl,
              show allocList [⟨.Label, Option.some st1.label, Option.none⟩] = [] from rfl,
              List.nil_append, List.append_nil]
            rw [hemit1.1, hat', range'_glue _ _ _ hm1 hmt']
          · rw [killsWF_append, killsWF_append, killsWF_append]
            simp only [Bool.and_eq_true]
            refine ⟨hemit1.2.1, ?_, killsWF_mono dt [] _ (by simp) hkt, by simp [killsWF]⟩
            simp [killsWF, allocOf, hrmem]
          · intro x hx
            rw [hlA] at hx
            rcases List.mem_append.1 hx with hm | hm
            · obtain ⟨u, v⟩ := hbt' x hm
              exact ⟨by omega, by omega⟩
            · simp at hm
              subst hm
              exact ⟨by omega, by omega⟩
          · rw [hlA, List.nodup_append]
            refine ⟨hndt, List.nodup_singleton _, ?_⟩
            intro a ha hb
            simp at hb
            subst hb
            obtain ⟨u, v⟩ := hbt' _ ha
            omega
          · refine jumpsWF_append _ _ (jumpsWF_of_noJumps d1 hemit1.2.2.2.1) ?_
            simp only [List.cons_append, List.nil_append, jumpsWF, Bool.and_eq_true]
            refine ⟨?_, ?_, ?_⟩
            · simp [jumpTargetOk, labelDefs_append, labelDefs, labelOf]
            · rfl
            · exact jumpsWF_append dt [⟨.Label, Option.some st1.label, Option.none⟩] hjt rfl
          · intro ir hir
            rcases List.mem_append.1 hir with hm | hm
            · exact hemit1.2.2.2.2 ir hm
            rcases List.mem_append.1 hm with hm2 | hm2
            · simp at hm2
              rcases hm2 with hm2 | hm2 <;> subst hm2 <;> rfl
            rcases List.mem_append.1 hm2 with hm3 | hm3
            · exact hpt ir hm3
            · simp at hm3
              subst hm3
              rfl
    | some els =>
      simp only [gen_stmt] at h
      rcases hg1 : gen_expr st code c with _ | ⟨st1, c1, r⟩ <;> rw [hg1] at h
      · simp at h
      · simp only [Option.bind_eq_bind, Option.some_bind] at h
        rcases hg2 : gen_stmt { st1 with label := st1.label + 1 }
            (c1 ++ [⟨.Unless, Option.some r, Option.some st1.label⟩,
              ⟨.Kill, Option.some r, Option.none⟩]) t with _ | ⟨st3, c3⟩ <;> rw [hg2] at h
        · simp at h
        · simp only [Option.some_bind] at h
          rcases hg3 : gen_stmt { st3 with label := st3.label + 1 }
              (c3 ++ [⟨.Jmp, Option.some st3.label, Option.none⟩,
                ⟨.Label, Option.some st1.label, Option.none⟩]) els with _ | ⟨st5, c5⟩ <;>
            rw [hg3] at h
          · simp at h
          · simp only [Option.some_bind, Option.some.injEq, Prod.mk.injEq] at h
            obtain ⟨h1, h2⟩ := h
            subst h1; subst h2
            obtain ⟨d1, hc1, hexpr⟩ := gen_expr_inv c st code st1 c1 r hg1
            subst hc1
            obtain ⟨hm1, hr1, hr2, hlab1, hemit1⟩ := hexpr
            obtain ⟨dt, hct, hst⟩ := gen_stmt_inv t _ _ _ _ hg2
            subst hct
            obtain ⟨hmt, hnt, hat, hkt, hbt, hndt, hjt, hpt⟩ := hst
            have hmt' : st1.regno ≤ st3.regno := hmt
            have hnt' : st1.label + 1 ≤ st3.label := hnt
            have hat' : allocList dt = List.range' st1.regno (st3.regno - st1.regno) := hat
            have hbt' : ∀ x ∈ labelDefs dt, st1.label + 1 ≤ x ∧ x < st3.label := hbt
            obtain ⟨de, hce, hse⟩ := gen_stmt_inv els _ _ _ _ hg3
            subst hce
            obtain ⟨hme, hne, hae, hke, hbe, hnde, hje, hpe⟩ := hse
            have hme' : st3.regno ≤ st5.regno := hme
            have hne' : st3.label + 1 ≤ st5.label := hne
            have hae' : allocList de = List.range' st3.regno (st5.regno - st3.regno) := hae
            have hbe' : ∀ x ∈ labelDefs de, st3.label + 1 ≤ x ∧ x < st5.label := hbe
            have hrmem : r ∈ allocList d1 := mem_allocList_of_range d1 st.regno
              (st1.regno - st.regno) r hemit1.1 hr1 (by omega)
            refine ⟨d1 ++ ([⟨.Unless, Option.some r, Option.some st1.label⟩,
              ⟨.Kill, Option.some r, Option.none⟩] ++
              (dt ++ ([⟨.Jmp, Option.some st3.label, Option.none⟩,
                ⟨.Label, Option.some st1.label, Option.none⟩] ++
                (de ++ [⟨.Label, Option.some st3.label, Option.none⟩])))), by simp, ?_⟩
            have hlA : labelDefs (d1 ++ ([⟨.Unless, Option.some r, Option.some st1.label⟩,
                ⟨.Kill, Option.some r, Option.none⟩] ++
                (dt ++ ([⟨.Jmp, Option.some st3.label, Option.none⟩,
                  ⟨.Label, Option.some st1.label, Option.none⟩] ++
                  (de ++ [⟨.Label, Option.some st3.label, Option.none⟩]))))) =
                labelDefs dt ++ (st1.label :: (labelDefs de ++ [st3.label])) := by
              rw [labelDefs_append, labelDefs_append, labelDefs_append, labelDefs_append,
                labelDefs_append, hemit1.2.2.1]
              simp only [show labelDefs [⟨.Unless, Option.some r, Option.some st1.label⟩,
                ⟨.Kill, Option.some r, Option.none⟩] = [] from rfl,
                show labelDefs [⟨.Jmp, Option.some st3.label, Option.none⟩,
                  ⟨.Label, Option.some st1.label, Option.none⟩] = [st1.label] from rfl,
                show labelDefs [⟨.Label, Option.some st3.label, Option.none⟩] = [st3.label]
                  from rfl, List.nil_append, List.singleton_append]
            refine ⟨by omega, by omega, ?_, ?_, ?_, ?_, ?_, ?_⟩
            · rw [allocList_append, allocList_append, allocList_append, allocList_append,
                allocList_append]
              simp only [show allocList [⟨.Unless, Option.some r, Option.some st1.label⟩,
                ⟨.Kill, Option.some r, Option.none⟩] = [] from rfl,
                show allocList [⟨.Jmp, Option.some st3.label, Option.none⟩,
                  ⟨.Label, Option.some st1.label, Option.none⟩] = [] from rfl,
                show allocList [⟨.Label, Option.some st3.label, Option.none⟩] = [] from rfl,
                List.nil_append, List.append_nil]
              rw [hemit1.1, hat', hae', range'_glue _ _ _ hmt' hme',
                range'_glue _ _ _ hm1 (by omega)]
            · rw [killsWF_append, killsWF_append, killsWF_append, killsWF_append,
                killsWF_append]
              simp only [Bool.and_eq_true]
              refine ⟨hemit1.2.1, ?_, killsWF_mono dt [] _ (by simp) hkt, by simp [killsWF],
                killsWF_mono de [] _ (by simp) hke, by simp [killsWF]⟩
              simp [killsWF, allocOf, hrmem]
            · intro x hx
              rw [hlA] at hx
              rcases List.mem_append.1 hx with hm | hm
              · obtain ⟨u, v⟩ := hbt' x hm
                exact ⟨by omega, by omega⟩
              · rcases List.mem_cons.1 hm with hm2 | hm2
                · subst hm2
                  exact ⟨by omega, by omega⟩
                rcases List.mem_append.1 hm2 with hm3 | hm3
                · obtain ⟨u, v⟩ := hbe' x hm3
                  exact ⟨by omega, by omega⟩
                · simp at hm3
                  subst hm3
                  exact ⟨by omega, by omega⟩
            · rw [hlA, List.nodup_append]
              refine ⟨hndt, ?_, ?_⟩
              · rw [List.nodup_cons]
                refine ⟨?_, ?_⟩
                · intro hmem
                  rcases List.mem_append.1 hmem with hm | hm
                  · obtain ⟨u, v⟩ := hbe' _ hm
                    omega
                  · simp at hm
                    omega
                · rw [List.nodup_append]
                  refine ⟨hnde, List.nodup_singleton _, ?_⟩
                  intro a ha hb
                  simp at hb
                  subst hb
                  obtain ⟨u, v⟩ := hbe' _ ha
                  omega
              · intro a ha hb
                obtain ⟨u, v⟩ := hbt' _ ha
                rcases List.mem_cons.1 hb with hm2 | hm2
                · omega
                rcases List.mem_append.1 hm2 with hm3 | hm3
                · obtain ⟨u2, v2⟩ := hbe' _ hm3
                  omega
                · simp at hm3
                  omega
            · refine jumpsWF_append _ _ (jumpsWF_of_noJumps d1 hemit1.2.2.2.1) ?_
              simp only [List.cons_append, List.nil_append, jumpsWF, Bool.and_eq_true]
              refine ⟨?_, ?_, ?_⟩
              · simp [jumpTargetOk, labelDefs_append, labelDefs, labelOf]
              · rfl
              · refine jumpsWF_append dt (⟨.Jmp, Option.some st3.label, Option.none⟩ ::
                  ⟨.Label, Option.some st1.label, Option.none⟩ ::
                  (de ++ [⟨.Label, Option.some st3.label, Option.none⟩])) hjt ?_
                simp only [jumpsWF, Bool.and_eq_true]
                refine ⟨?_, ?_, ?_⟩
                · simp [jumpTargetOk, labelDefs_append, labelDefs, labelOf]
                · rfl
                · exact jumpsWF_append de [⟨.Label, Option.some st3.label, Option.none⟩]
                    hje rfl
            · intro ir hir
              rcases List.mem_append.1 hir with hm | hm
              · exact hemit1.2.2.2.2 ir hm
              rcases List.mem_append.1 hm with hm2 | hm2
              · simp at hm2
                rcases hm2 with hm2 | hm2 <;> subst hm2 <;> rfl
              rcases List.mem_append.1 hm2 with hm3 | hm3
              · exact hpt ir hm3
              rcases List.mem_append.1 hm3 with hm4 | hm4
              · simp at hm4
                rcases hm4 with hm4 | hm4 <;> subst hm4 <;> rfl
              rcases List.mem_append.1 hm4 with hm5 | hm5
              · exact hpe ir hm5
              · simp at hm5
                subst hm5
                rfl
  | Num v => simp [gen_stmt] at h
  | Ident n => simp [gen_stmt] at h
  | Call n a => simp [gen_stmt] at h
  | BinOp o a b => simp [gen_stmt] at h
  | Func n a b => simp [gen_stmt] at h

theorem gen_stmt_list_inv (l : NodeList) : ∀ (st : GenState) (code : List IR) (st2 : GenState)
    (code2 : List IR), gen_stmt_list st code l = Option.some (st2, code2) →
    ∃ d, code2 = code ++ d ∧ StmtOut st d st2 := by
  intro st code st2 code2 h
  cases l with
  | nil =>
    simp only [gen_stmt_list, Option.some.injEq, Prod.mk.injEq] at h
    obtain ⟨h1, h2⟩ := h
    subst h1; subst h2
    exact ⟨[], by simp, stmtOut_nil st⟩
  | cons n rest =>
    simp only [gen_stmt_list] at h
    rcases hg1 : gen_stmt st code n with _ | ⟨st1, c1⟩ <;> rw [hg1] at h
    · simp at h
    · simp only [Option.bind_eq_bind, Option.some_bind] at h
      obtain ⟨d1, hc1, hs1⟩ := gen_stmt_inv n st code st1 c1 hg1
      subst hc1
      obtain ⟨d2, hc2, hs2⟩ := gen_stmt_list_inv rest st1 (code ++ d1) st2 code2 h
      subst hc2
      exact ⟨d1 ++ d2, by simp, hs1.seqComp hs2⟩
end

theorem gen_args_loop_state (l : NodeList) : ∀ st st1 : GenState,
    gen_args_loop st l = Option.some st1 → st1.regno = st.regno ∧ st1.label = st.label := by
  intro st st1 h
  cases l with
  | nil =>
    simp only [gen_args_loop, Option.some.injEq] at h
    subst h
    exact ⟨rfl, rfl⟩
  | cons a rest =>
    cases a <;> simp only [gen_args_loop] at h
    case Ident name =>
      obtain ⟨h1, h2⟩ := gen_args_loop_state rest _ _ h
      exact ⟨h1, h2⟩
    all_goals exact absurd h (by simp)

theorem gen_args_inv (st : GenState) (code : List IR) (nodes : NodeList) (st1 : GenState)
    (c1 : List IR) (h : gen_args st code nodes = Option.some (st1, c1)) :
    st1.regno = st.regno ∧ st1.label = st.label ∧
    (c1 = code ∨ c1 = code ++ [⟨.SaveArgs, Option.some nodes.length, Option.none⟩]) := by
  unfold gen_args at h
  by_cases hn : nodes.length = 0
  · rw [if_pos hn] at h
    simp only [Option.some.injEq, Prod.mk.injEq] at h
    obtain ⟨h1, h2⟩ := h
    subst h1; subst h2
    exact ⟨rfl, rfl, Or.inl rfl⟩
  · rw [if_neg hn] at h
    rcases hg : gen_args_loop st nodes with _ | stx <;> rw [hg] at h
    · simp at h
    · simp only [Option.bind_eq_bind, Option.some_bind, Option.some.injEq, Prod.mk.injEq] at h
      obtain ⟨h1, h2⟩ := h
      subst h1; subst h2
      obtain ⟨h1, h2⟩ := gen_args_loop_state nodes _ _ hg
      exact ⟨h1, h2, Or.inr rfl⟩

theorem gen_ir_inv (nodes : List Node) : ∀ (st : GenState) (fns : List Function)
    (st2 : GenState), gen_ir st nodes = Option.some (fns, st2) →
    st.label ≤ st2.label ∧
    (∀ f ∈ fns, (∃ k, allocList f.ir = List.range' 1 k) ∧ killsWF [] f.ir = true ∧
      jumpsWF f.ir = true ∧ (labelDefs f.ir).Nodup ∧
      (∀ x ∈ labelDefs f.ir, st.label ≤ x ∧ x < st2.label) ∧
      (∀ ir ∈ f.ir, (displayIR ir).isSome = true)) ∧
    ((fns.map fun f => labelDefs f.ir).flatten.Nodup) := by
  intro st fns st2 h
  cases nodes with
  | nil =>
    simp only [gen_ir, Option.some.injEq, Prod.mk.injEq] at h
    obtain ⟨h1, h2⟩ := h
    subst h1; subst h2
    refine ⟨Nat.le_refl _, ?_, ?_⟩
    · intro f hf; simp at hf
    · simp
  | cons nd rest =>
    cases nd <;> simp only [gen_ir] at h
    case Func name args body =>
      rcases hg1 : gen_args { st with vars := [], regno := 1, stacksize := 0 } [] args
          with _ | ⟨st1, c1⟩ <;> rw [hg1] at h
      · simp at h
      · simp only [Option.bind_eq_bind, Option.some_bind] at h
        rcases hg2 : gen_stmt st1 c1 body with _ | ⟨stB, c2⟩ <;> rw [hg2] at h
        · simp at h
        · simp only [Option.some_bind] at h
          rcases hg3 : gen_ir stB rest with _ | ⟨fns2, st3⟩ <;> rw [hg3] at h
          · simp at h
          · simp only [Option.some_bind, Option.some.injEq, Prod.mk.injEq] at h
            obtain ⟨h1, h2⟩ := h
            subst h1; subst h2
            obtain ⟨hreg1, hlab1, hc1⟩ := gen_args_inv _ _ _ _ _ hg1
            obtain ⟨db, hcb, hsb⟩ := gen_stmt_inv body _ _ _ _ hg2
            subst hcb
            obtain ⟨hmB, hnB, haB, hkB, hbB, hndB, hjB, hpB⟩ := hsb
            obtain ⟨hlab3, hall3, hjoin3⟩ := gen_ir_inv rest _ _ _ hg3
            have hreg1' : st1.regno = 1 := hreg1
            have hlab1' : st1.label = st.label := hlab1
            have hpre : ∀ ir ∈ c1, allocOf ir = Option.none ∧ labelOf ir = Option.none ∧
                isJump ir = false ∧ ir.op ≠ IROp.Kill ∧ (displayIR ir).isSome = true := by
              intro ir hir
              rcases hc1 with hc | hc <;> subst hc <;> simp at hir
              subst hir
              exact ⟨rfl, rfl, rfl, by simp, rfl⟩
            have hCalloc : allocList (c1 ++ db) = List.range' 1 (stB.regno - 1) := by
              rw [allocList_append,
                show allocList c1 = [] from by
                  simp only [allocList, List.filterMap_eq_nil_iff]
                  exact fun ir hir => (hpre ir hir).1,
                List.nil_append, haB, hreg1']
            have hClab : labelDefs (c1 ++ db) = labelDefs db := by
              rw [labelDefs_append,
                show labelDefs c1 = [] from by
                  simp only [labelDefs, List.filterMap_eq_nil_iff]
                  exact fun ir hir => (hpre ir hir).2.1,
                List.nil_append]
            have hCkill : killsWF [] (c1 ++ db) = true := by
              rw [killsWF_append, Bool.and_eq_true]
              constructor
              · rcases hc1 with hc | hc <;> subst hc
                · rfl
                · simp [killsWF]
              · exact killsWF_mono db [] _ (by simp) hkB
            have hCjump : jumpsWF (c1 ++ db) = true := by
              refine jumpsWF_append _ _ (jumpsWF_of_noJumps c1 ?_) hjB
              exact fun ir hir => (hpre ir hir).2.2.1
            have hCdisp : ∀ ir ∈ c1 ++ db, (displayIR ir).isSome = true := by
              intro ir hir
              rcases List.mem_append.1 hir with hm | hm
              · exact (hpre ir hm).2.2.2.2
              · exact hpB ir hm
            have hbB' : ∀ x ∈ labelDefs db, st.label ≤ x ∧ x < stB.label := by
              intro x hx
              obtain ⟨u, v⟩ := hbB x hx
              rw [hlab1'] at u
              exact ⟨u, v⟩
            have hnB' : st.label ≤ stB.label := by
              have := hnB
              rw [hlab1'] at this
              exact this
            refine ⟨by omega, ?_, ?_⟩
            · intro f hf
              rcases List.mem_cons.1 hf with hf | hf
              · subst hf
                refine ⟨⟨stB.regno - 1, hCalloc⟩, hCkill, hCjump, ?_, ?_, hCdisp⟩
                · rw [hClab]; exact hndB
                · rw [hClab]
                  intro x hx
                  obtain ⟨u, v⟩ := hbB' x hx
                  exact ⟨u, by omega⟩
              · obtain ⟨e1, e2, e3, e4, e5, e6⟩ := hall3 f hf
                refine ⟨e1, e2, e3, e4, ?_, e6⟩
                intro x hx
                obtain ⟨u, v⟩ := e5 x hx
                exact ⟨by omega, v⟩
            · simp only [List.map_cons, List.flatten_cons]
              rw [List.nodup_append]
              refine ⟨by rw [hClab]; exact hndB, hjoin3, ?_⟩
              intro a ha hb
              rw [hClab] at ha
              obtain ⟨u, v⟩ := hbB' a ha
              simp only [List.mem_flatten, List.mem_map] at hb
              obtain ⟨lst, ⟨f, hf, hfl⟩, hal⟩ := hb
              subst hfl
              obtain ⟨e1, e2, e3, e4, e5, e6⟩ := hall3 f hf
              obtain ⟨u2, v2⟩ := e5 a hal
              omega
    all_goals exact absurd h (by simp)

example : gen_ir initState [exProg2] =
    Option.some ([⟨"main", exProg2Out, 8⟩], ⟨[("x", 0)], 4, 8, 0⟩) := rfl

example : gen_ir initState [exProgIf] = Option.some ([exFnIf], exStateIf) := rfl

/-- Claim C1: lowering an assignment expression (a `BinOp` with the `Equal`
operator) first emits the right-hand side's instructions, then the left-hand
side's address computation, then `Store(address, value)`, then a `Kill` of
the value register, and returns the address register (distinct from the
stored value's register) as the expression's result. -/
theorem C1_assignment (st : GenState) (code : List IR) (l rt : Node) (st2 : GenState)
    (code2 : List IR) (res : Nat)
    (h : gen_expr st code (.BinOp .Equal l rt) = Option.some (st2, code2, res)) :
    ∃ st1 c1 v c2 a, gen_expr st code rt = Option.some (st1, c1, v) ∧
      gen_lval st1 c1 l = Option.some (st2, c2, a) ∧
      code2 = c2 ++ [⟨.Store, Option.some a, Option.some v⟩,
        ⟨.Kill, Option.some v, Option.none⟩] ∧
      res = a ∧ a ≠ v := by
  simp only [gen_expr] at h
  rcases hg1 : gen_expr st code rt with _ | ⟨st1, c1, v⟩ <;> rw [hg1] at h
  · simp at h
  · simp only [Option.bind_eq_bind, Option.some_bind] at h
    rcases hg2 : gen_lval st1 c1 l with _ | ⟨stl, c2, a⟩ <;> rw [hg2] at h
    · simp at h
    · simp only [Option.some_bind, Option.some.injEq, Prod.mk.injEq] at h
      obtain ⟨h1, h2, h3⟩ := h
      subst h1; subst h2; subst h3
      obtain ⟨d1, hc1, hm1, hv1, hv2, hlab1, hemit1⟩ := gen_expr_inv rt st code st1 c1 v hg1
      obtain ⟨ha, hreg, hlab2, off, hc⟩ := gen_lval_inv _ _ _ _ _ _ hg2
      subst ha
      exact ⟨st1, c1, v, c2, st1.regno, rfl, hg2, rfl, rfl, by omega⟩

/-- Witness for C1 at the concrete assignment `x = 3` from the initial
state. -/
theorem C1_assignment_witness :
    ∃ st1 c1 v c2 a, gen_expr initState [] (.Num 3) = Option.some (st1, c1, v) ∧
      gen_lval st1 c1 (.Ident "x") = Option.some (⟨[("x", 0)], 3, 8, 0⟩, c2, a) ∧
      [⟨.Imm, Option.some 1, Option.some 3⟩, ⟨.Mov, Option.some 2, Option.some 0⟩,
        ⟨.SubImm, Option.some 2, Option.some 0⟩, ⟨.Store, Option.some 2, Option.some 1⟩,
        ⟨.Kill, Option.some 1, Option.none⟩] =
        c2 ++ [⟨.Store, Option.some a, Option.some v⟩,
          ⟨.Kill, Option.some v, Option.none⟩] ∧
      2 = a ∧ a ≠ v :=
  C1_assignment initState [] (.Ident "x") (.Num 3) ⟨[("x", 0)], 3, 8, 0⟩
    [⟨.Imm, Option.some 1, Option.some 3⟩, ⟨.Mov, Option.some 2, Option.some 0⟩,
      ⟨.SubImm, Option.some 2, Option.some 0⟩, ⟨.Store, Option.some 2, Option.some 1⟩,
      ⟨.Kill, Option.some 1, Option.none⟩] 2 rfl

/-- Counterexample to Claim C2 as stated: for the body `x = 3; return x;`
the lowering produces `exProg2Out` — the right-hand side is lowered first
(`Imm` before the address computation) and the bare expression statement
emits an extra `Kill` of the assignment's result register — which differs
from the instruction sequence the claim lists. -/
theorem C2_counterexample :
    gen_ir initState [exProg2] =
      Option.some ([⟨"main", exProg2Out, 8⟩], ⟨[("x", 0)], 4, 8, 0⟩) ∧
    exProg2Out ≠ exC2Claimed :=
  ⟨rfl, by decide⟩

/-- Claim C2 (amended): for a function whose body is exactly
`x = 3; return x;` (fresh per-function context), lowering produces exactly
`Imm r1,3; Mov r2,0; SubImm r2,0; Store r2,r1; Kill r1; Kill r2; Mov r3,0;
SubImm r3,0; Load r3,r3; Return r3; Kill r3` and the function's stack size
is 8. -/
theorem C2_amended (st : GenState) :
    gen_ir st [exProg2] = Option.some ([⟨"main", exProg2Out, 8⟩],
      { st with vars := [("x", 0)], regno := 4, stacksize := 8 }) := by
  rcases st with ⟨v, r, s, lb⟩
  rfl

/-- Claim C4: in every lowered function, the freshly allocated destination
registers (the `lhs` of each `Imm`, `Mov` and `Call`) are exactly the range
`1, 2, ..., k` in order — strictly increasing, unique within the function,
starting at 1, and register 0 is never produced. -/
theorem C4_registers (st : GenState) (nodes : List Node) (fns : List Function)
    (st2 : GenState) (h : gen_ir st nodes = Option.some (fns, st2)) :
    ∀ f ∈ fns, ∃ k, allocList f.ir = List.range' 1 k ∧
      List.Pairwise (· < ·) (allocList f.ir) ∧ (allocList f.ir).Nodup ∧
      0 ∉ allocList f.ir := by
  intro f hf
  obtain ⟨-, hall, -⟩ := gen_ir_inv nodes st fns st2 h
  obtain ⟨⟨k, hk⟩, -, -, -, -, -⟩ := hall f hf
  refine ⟨k, hk, ?_, ?_, ?_⟩
  · rw [hk]; exact List.pairwise_lt_range' 1 k
  · rw [hk]; exact List.nodup_range' 1 k
  · rw [hk]; intro h0; rw [List.mem_range'_1] at h0; omega

/-- Witness for C4 on the lowering of an if/else function. -/
theorem C4_registers_witness :
    ∃ k, allocList exFnIf.ir = List.range' 1 k ∧
      List.Pairwise (· < ·) (allocList exFnIf.ir) ∧ (allocList exFnIf.ir).Nodup ∧
      0 ∉ allocList exFnIf.ir :=
  C4_registers initState [exProgIf] [exFnIf] exStateIf rfl exFnIf (by simp)

/-- Claim C5: in every lowered function, every `Kill` instruction names a
register freshly allocated by an instruction occurring strictly earlier in
that function's instruction sequence (`killsWF` starting from no available
registers). -/
theorem C5_kills (st : GenState) (nodes : List Node) (fns : List Function)
    (st2 : GenState) (h : gen_ir st nodes = Option.some (fns, st2)) :
    ∀ f ∈ fns, killsWF [] f.ir = true := by
  intro f hf
  obtain ⟨-, hall, -⟩ := gen_ir_inv nodes st fns st2 h
  exact (hall f hf).2.1

/-- Witness for C5 on the lowering of an if/else function. -/
theorem C5_kills_witness : killsWF [] exFnIf.ir = true :=
  C5_kills initState [exProgIf] [exFnIf] exStateIf rfl exFnIf (by simp)

/-- Claim C6: across one run of the driver the label ids defined by `Label`
instructions are globally unique over all produced functions (the label
counter is never reset), and every `Unless` and `Jmp` targets a label id
for which a `Label` instruction is emitted later in the same function's
instruction list. -/
theorem C6_labels (st : GenState) (nodes : List Node) (fns : List Function)
    (st2 : GenState) (h : gen_ir st nodes = Option.some (fns, st2)) :
    ((fns.map fun f => labelDefs f.ir).flatten).Nodup ∧
      ∀ f ∈ fns, jumpsWF f.ir = true := by
  obtain ⟨-, hall, hjoin⟩ := gen_ir_inv nodes st fns st2 h
  exact ⟨hjoin, fun f hf => (hall f hf).2.2.1⟩

/-- Witness for C6 on the lowering of an if/else function. -/
theorem C6_labels_witness :
    (([exFnIf].map fun f => labelDefs f.ir).flatten).Nodup ∧ jumpsWF exFnIf.ir = true :=
  ⟨(C6_labels initState [exProgIf] [exFnIf] exStateIf rfl).1,
   (C6_labels initState [exProgIf] [exFnIf] exStateIf rfl).2 exFnIf (by simp)⟩

/-- Claim C7: lowering a call with at most 6 arguments lowers the argument
expressions left-to-right (`gen_expr_args`), each yielding its own fresh
register (strictly increasing, hence pairwise distinct); then emits one
`Call` carrying the callee name, the argument count and the padded
argument-register array; then exactly one `Kill` per argument register in
argument order; the fresh result register is not killed and is returned. -/
theorem C7_call (st : GenState) (code : List IR) (name : String) (args : NodeList)
    (st2 : GenState) (code2 : List IR) (res : Nat)
    (h : gen_expr st code (.Call name args) = Option.some (st2, code2, res))
    (_hlen : args.length ≤ 6) :
    ∃ st1 c1 regs, gen_expr_args st code 0 args = Option.some (st1, c1, regs) ∧
      regs.length = args.length ∧
      res = st1.regno ∧
      st2 = { st1 with regno := st1.regno + 1 } ∧
      code2 = c1 ++ [⟨.Call name args.length (regs ++ List.replicate (6 - regs.length) 0),
        Option.some res, Option.none⟩] ++
        (regs.map fun q => ⟨.Kill, Option.some q, Option.none⟩) ∧
      List.Pairwise (· < ·) regs ∧ res ∉ regs := by
  simp only [gen_expr] at h
  rcases hg : gen_expr_args st code 0 args with _ | ⟨st1, c1, regs⟩ <;> rw [hg] at h
  · simp at h
  · simp only [Option.bind_eq_bind, Option.some_bind, Option.some.injEq, Prod.mk.injEq] at h
    obtain ⟨h1, h2, h3⟩ := h
    subst h1; subst h2; subst h3
    obtain ⟨d, hc, hm, hlab, hbnd, hpw, hemit, hl⟩ :=
      gen_expr_args_inv args st code st1 c1 regs 0 hg
    refine ⟨st1, c1, regs, rfl, hl, rfl, rfl, rfl, hpw, ?_⟩
    intro hmem
    obtain ⟨u, v⟩ := hbnd _ hmem
    omega

/-- Witness for C7 at the concrete call `f(1, 2)`. -/
theorem C7_call_witness :
    ∃ st1 c1 regs, gen_expr_args initState [] 0 (.cons (.Num 1) (.cons (.Num 2) .nil)) =
      Option.some (st1, c1, regs) ∧
      regs.length = (NodeList.cons (.Num 1) (.cons (.Num 2) .nil)).length ∧
      3 = st1.regno ∧
      (⟨[], 4, 0, 0⟩ : GenState) = { st1 with regno := st1.regno + 1 } ∧
      [⟨.Imm, Option.some 1, Option.some 1⟩, ⟨.Imm, Option.some 2, Option.some 2⟩,
        ⟨.Call "f" 2 [1, 2, 0, 0, 0, 0], Option.some 3, Option.none⟩,
        ⟨.Kill, Option.some 1, Option.none⟩, ⟨.Kill, Option.some 2, Option.none⟩] =
        c1 ++ [⟨.Call "f" (NodeList.cons (.Num 1) (.cons (.Num 2) .nil)).length
          (regs ++ List.replicate (6 - regs.length) 0), Option.some 3, Option.none⟩] ++
        (regs.map fun q => ⟨.Kill, Option.some q, Option.none⟩) ∧
      List.Pairwise (· < ·) regs ∧ 3 ∉ regs :=
  C7_call initState [] "f" (.cons (.Num 1) (.cons (.Num 2) .nil)) ⟨[], 4, 0, 0⟩
    [⟨.Imm, Option.some 1, Option.some 1⟩, ⟨.Imm, Option.some 2, Option.some 2⟩,
      ⟨.Call "f" 2 [1, 2, 0, 0, 0, 0], Option.some 3, Option.none⟩,
      ⟨.Kill, Option.some 1, Option.none⟩, ⟨.Kill, Option.some 2, Option.none⟩] 3
    rfl (by decide)

theorem gen_ir_none_of_nonFunc (nodes : List Node) : ∀ st : GenState,
    (∃ n ∈ nodes, isFunc n = false) → gen_ir st nodes = Option.none := by
  induction nodes with
  | nil =>
    intro st h
    obtain ⟨n, hn, -⟩ := h
    simp at hn
  | cons nd rest ih =>
    intro st h
    obtain ⟨n, hn, hbad⟩ := h
    cases nd with
    | Func name args body =>
      have hrest : n ∈ rest := by
        rcases List.mem_cons.1 hn with hm | hm
        · subst hm; simp [isFunc] at hbad
        · exact hm
      simp only [gen_ir]
      rcases hg1 : gen_args { st with vars := [], regno := 1, stacksize := 0 } [] args
          with _ | ⟨st1, c1⟩
      · simp
      · rcases hg2 : gen_stmt st1 c1 body with _ | ⟨stB, c2⟩
        · simp [hg2]
        · have h3 := ih stB ⟨n, hrest, hbad⟩
          simp [hg2, h3]
    | Num v => simp [gen_ir]
    | Ident nm => simp [gen_ir]
    | Call nm a => simp [gen_ir]
    | BinOp o a b => simp [gen_ir]
    | If c t e => simp [gen_ir]
    | Return e => simp [gen_ir]
    | ExprStmt e => simp [gen_ir]
    | CompStmt s => simp [gen_ir]

theorem gen_ir_names (nodes : List Node) : ∀ (st : GenState) (fns : List Function)
    (st2 : GenState), gen_ir st nodes = Option.some (fns, st2) →
    nodes.map nodeFuncName = fns.map fun f => Option.some f.name := by
  intro st fns st2 h
  cases nodes with
  | nil =>
    simp only [gen_ir, Option.some.injEq, Prod.mk.injEq] at h
    obtain ⟨h1, h2⟩ := h
    subst h1
    simp
  | cons nd rest =>
    cases nd <;> simp only [gen_ir] at h
    case Func name args body =>
      rcases hg1 : gen_args { st with vars := [], regno := 1, stacksize := 0 } [] args
          with _ | ⟨st1, c1⟩ <;> rw [hg1] at h
      · simp at h
      · simp only [Option.bind_eq_bind, Option.some_bind] at h
        rcases hg2 : gen_stmt st1 c1 body with _ | ⟨stB, c2⟩ <;> rw [hg2] at h
        · simp at h
        · simp only [Option.some_bind] at h
          rcases hg3 : gen_ir stB rest with _ | ⟨fns2, st3⟩ <;> rw [hg3] at h
          · simp at h
          · simp only [Option.some_bind, Option.some.injEq, Prod.mk.injEq] at h
            obtain ⟨h1, h2⟩ := h
            subst h1
            simp only [List.map_cons, nodeFuncName]
            rw [gen_ir_names rest stB fns2 st3 hg3]
    all_goals exact absurd h (by simp)

/-- Claim C9 (amended): if any top-level node is not a function definition
the driver fails with no output function list; conversely, whenever the
driver succeeds it returns exactly one `Function` record per definition, in
input order.  (Success is not guaranteed merely because every top-level
node is a function definition: a body that fails to lower aborts the whole
run, as the counterexample shows.) -/
theorem C9_driver :
    (∀ (st : GenState) (nodes : List Node), (∃ n ∈ nodes, isFunc n = false) →
      gen_ir st nodes = Option.none) ∧
    (∀ (st : GenState) (nodes : List Node) (fns : List Function) (st2 : GenState),
      gen_ir st nodes = Option.some (fns, st2) →
      nodes.map nodeFuncName = fns.map fun f => Option.some f.name) :=
  ⟨fun st nodes h => gen_ir_none_of_nonFunc nodes st h,
   fun st nodes fns st2 h => gen_ir_names nodes st fns st2 h⟩

/-- Counterexample to Claim C9 as stated: every top-level node of this
program is a function definition, yet the driver produces no output because
the body fails to lower. -/
theorem C9_counterexample :
    isFunc (.Func "f" .nil (.Num 0)) = true ∧
    gen_ir initState [.Func "f" .nil (.Num 0)] = Option.none :=
  ⟨rfl, rfl⟩

/-- Witness for C9: a non-function top-level node yields no output, and a
successful run returns one record per definition in order. -/
theorem C9_driver_witness :
    gen_ir initState [Node.Num 1] = Option.none ∧
    [exProg2].map nodeFuncName =
      [(⟨"main", exProg2Out, 8⟩ : Function)].map (fun f => Option.some f.name) :=
  ⟨C9_driver.1 initState [Node.Num 1] ⟨Node.Num 1, by simp, rfl⟩,
   C9_driver.2 initState [exProg2] [⟨"main", exProg2Out, 8⟩] ⟨[("x", 0)], 4, 8, 0⟩ rfl⟩

/-- Claim C10: every instruction emitted by the lowering pass renders
totally — `lhs` is always present and `rhs` is present whenever the display
shape requires it — so the Display implementation's unwraps cannot panic on
lowering output. -/
theorem C10_display (st : GenState) (nodes : List Node) (fns : List Function)
    (st2 : GenState) (h : gen_ir st nodes = Option.some (fns, st2)) :
    ∀ f ∈ fns, ∀ ir ∈ f.ir, (displayIR ir).isSome = true := by
  intro f hf
  obtain ⟨-, hall, -⟩ := gen_ir_inv nodes st fns st2 h
  exact (hall f hf).2.2.2.2.2

/-- Witness for C10 at the `Unless` instruction of an if/else lowering. -/
theorem C10_display_witness :
    (displayIR ⟨.Unless, Option.some 1, Option.some 0⟩).isSome = true :=
  C10_display initState [exProgIf] [exFnIf] exStateIf rfl exFnIf (by simp)
    ⟨.Unless, Option.some 1, Option.some 0⟩ (by decide)

theorem identList_length (names : List String) : (identList names).length = names.length := by
  induction names with
  | nil => rfl
  | cons a tl ih => simp [identList, NodeList.length, ih, Nat.add_comm]

theorem paramBindings_keys (names : List String) : ∀ base : Nat,
    ∀ p ∈ paramBindings base names, p.1 ∈ names := by
  induction names with
  | nil => intro base p hp; simp [paramBindings] at hp
  | cons a tl ih =>
    intro base p hp
    rcases List.mem_cons.1 hp with hm | hm
    · subst hm; exact List.mem_cons_self _ _
    · exact List.mem_cons_of_mem _ (ih (base + 8) p hm)

theorem gen_args_loop_spec (names : List String) : ∀ st : GenState,
    gen_args_loop st (identList names) = Option.some { st with
      stacksize := st.stacksize + 8 * names.length,
      vars := (paramBindings st.stacksize names).reverse ++ st.vars } := by
  induction names with
  | nil =>
    intro st
    rcases st with ⟨v, r, s, lb⟩
    simp [gen_args_loop, identList, paramBindings]
  | cons a tl ih =>
    intro st
    simp only [identList, gen_args_loop, paramBindings]
    rw [ih]
    congr 1
    rcases st with ⟨v, r, s, lb⟩
    simp only [List.reverse_cons, List.append_assoc, List.singleton_append]
    congr 1
    simp only [List.length_cons]
    ring

theorem lookup_append_of_keys_ne (l1 l2 : List (String × Nat)) (k : String)
    (h : ∀ p ∈ l1, p.1 ≠ k) : (l1 ++ l2).lookup k = l2.lookup k := by
  induction l1 with
  | nil => rfl
  | cons p t ih =>
    rcases p with ⟨k1, v1⟩
    simp only [List.cons_append, List.lookup]
    have hne : (k == k1) = false := by
      have := h (k1, v1) (List.mem_cons_self _ _)
      simp only [ne_eq] at this
      simp only [beq_eq_false_iff_ne, ne_eq]
      intro hk
      exact this hk.symm
    rw [hne]
    exact ih fun p hp => h p (List.mem_cons_of_mem _ hp)

theorem paramBindings_lookup (names : List String) : ∀ (base : Nat)
    (rest : List (String × Nat)) (i : Nat) (hi : i < names.length), names.Nodup →
    ((paramBindings base names).reverse ++ rest).lookup (names.get ⟨i, hi⟩) =
      Option.some (base + 8 * (i + 1)) := by
  induction names with
  | nil => intro base rest i hi; exact absurd hi (by simp)
  | cons a tl ih =>
    intro base rest i hi hnd
    rcases i with _ | j
    · simp only [paramBindings, List.reverse_cons, List.get, List.append_assoc,
        List.singleton_append]
      rw [lookup_append_of_keys_ne]
      · simp [List.lookup]
      · intro p hp hpk
        have hkey := paramBindings_keys tl (base + 8) p (by simpa using hp)
        rw [hpk] at hkey
        exact (List.nodup_cons.1 hnd).1 hkey
    · have h2 := ih (base + 8) ((a, base + 8) :: rest) j (by
        simpa using Nat.lt_of_succ_lt_succ hi) (List.nodup_cons.1 hnd).2
      simp only [paramBindings, List.reverse_cons, List.get, List.append_assoc,
        List.singleton_append]
      rw [show base + 8 * (j + 1 + 1) = base + 8 + 8 * (j + 1) from by ring]
      exact h2

/-- Claim C8: binding a list of distinct parameter names from a fresh stack
emits exactly one `SaveArgs n` when `n ≥ 1` and nothing when `n = 0`, grows
the stack size to `8·n`, and binds the i-th parameter (1-based, in order)
to frame offset `8·i` — the post-increment stack size. -/
theorem C8_params (st : GenState) (names : List String) (st1 : GenState) (c1 : List IR)
    (h : gen_args { st with stacksize := 0 } [] (identList names) = Option.some (st1, c1))
    (hnd : names.Nodup) :
    (names.length = 0 → c1 = []) ∧
    (0 < names.length → c1 = [⟨.SaveArgs, Option.some names.length, Option.none⟩]) ∧
    st1.stacksize = 8 * names.length ∧
    ∀ i (hi : i < names.length), st1.vars.lookup (names.get ⟨i, hi⟩) =
      Option.some (8 * (i + 1)) := by
  unfold gen_args at h
  rw [identList_length] at h
  by_cases hn : names.length = 0
  · rw [if_pos hn] at h
    simp only [Option.some.injEq, Prod.mk.injEq] at h
    obtain ⟨h1, h2⟩ := h
    subst h1; subst h2
    refine ⟨fun _ => rfl, fun hx => absurd hn (by omega), by simp [hn], ?_⟩
    intro i hi
    omega
  · rw [if_neg hn] at h
    rw [gen_args_loop_spec] at h
    simp only [Option.bind_eq_bind, Option.some_bind, Option.some.injEq, Prod.mk.injEq] at h
    obtain ⟨h1, h2⟩ := h
    subst h1; subst h2
    refine ⟨fun hx => absurd hx hn, fun _ => by simp [identList_length], by simp, ?_⟩
    intro i hi
    show (((paramBindings 0 names).reverse ++ st.vars).lookup (names.get ⟨i, hi⟩)) = _
    rw [paramBindings_lookup names 0 st.vars i hi hnd]
    simp

/-- Witness for C8 at the parameter list `(a, b)`: offsets 8 and 16, stack
size 16. -/
theorem C8_params_witness :
    (((["a", "b"] : List String).length = 0 →
      [(⟨.SaveArgs, Option.some 2, Option.none⟩ : IR)] = []) ∧
    (0 < (["a", "b"] : List String).length →
      [(⟨.SaveArgs, Option.some 2, Option.none⟩ : IR)] =
        [⟨.SaveArgs, Option.some (["a", "b"] : List String).length, Option.none⟩]) ∧
    (⟨[("b", 16), ("a", 8)], 1, 16, 0⟩ : GenState).stacksize =
      8 * (["a", "b"] : List String).length ∧
    ∀ i (hi : i < (["a", "b"] : List String).length),
      (⟨[("b", 16), ("a", 8)], 1, 16, 0⟩ : GenState).vars.lookup
        ((["a", "b"] : List String).get ⟨i, hi⟩) = Option.some (8 * (i + 1))) :=
  C8_params initState ["a", "b"] ⟨[("b", 16), ("a", 8)], 1, 16, 0⟩
    [⟨.SaveArgs, Option.some 2, Option.none⟩] rfl (by decide)

theorem famCode_inj (o1 o2 : IROp) (h : famCode o1 = famCode o2) :
    o1.family = o2.family ∨
    ((o1 = .Label ∨ o1 = .Jmp) ∧ (o2 = .Label ∨ o2 = .Jmp)) := by
  cases o1 <;> cases o2 <;> simp_all [famCode, IROp.family]

theorem digitChar_mod10_isDigit (n : Nat) : (Nat.digitChar (n % 10)).isDigit = true := by
  have h : n % 10 < 10 := Nat.mod_lt _ (by omega)
  set m := n % 10 with hm
  interval_cases m <;> decide

theorem toDigitsCore_digits : ∀ (fuel n : Nat) (ds : List Char),
    (∀ c ∈ ds, c.isDigit = true) → ∀ c ∈ Nat.toDigitsCore 10 fuel n ds, c.isDigit = true := by
  intro fuel
  induction fuel with
  | zero => intro n ds hds c hc; exact hds c hc
  | succ f ih =>
    intro n ds hds c hc
    simp only [Nat.toDigitsCore] at hc
    by_cases h0 : n / 10 = 0
    · rw [if_pos h0] at hc
      rcases List.mem_cons.1 hc with hm | hm
      · subst hm; exact digitChar_mod10_isDigit n
      · exact hds c hm
    · rw [if_neg h0] at hc
      refine ih (n / 10) (Nat.digitChar (n % 10) :: ds) ?_ c hc
      intro c2 hc2
      rcases List.mem_cons.1 hc2 with hm | hm
      · subst hm; exact digitChar_mod10_isDigit n
      · exact hds c2 hm

theorem toDigitsCore_length : ∀ (fuel n : Nat) (ds : List Char),
    ds.length ≤ (Nat.toDigitsCore 10 fuel n ds).length := by
  intro fuel
  induction fuel with
  | zero => intro n ds; exact Nat.le_refl _
  | succ f ih =>
    intro n ds
    simp only [Nat.toDigitsCore]
    by_cases h0 : n / 10 = 0
    · rw [if_pos h0]
      simp
    · rw [if_neg h0]
      have := ih (n / 10) (Nat.digitChar (n % 10) :: ds)
      simp only [List.length_cons] at this
      omega

theorem repr_digits (n : Nat) : ∀ c ∈ (Nat.repr n).data, c.isDigit = true := by
  intro c hc
  have hd : (Nat.repr n).data = Nat.toDigitsCore 10 (n + 1) n [] := rfl
  rw [hd] at hc
  exact toDigitsCore_digits (n + 1) n [] (by simp) c hc

theorem repr_data_ne_nil (n : Nat) : (Nat.repr n).data ≠ [] := by
  have hd : (Nat.repr n).data = Nat.toDigitsCore 10 (n + 1) n [] := rfl
  rw [hd]
  simp only [Nat.toDigitsCore]
  by_cases h0 : n / 10 = 0
  · rw [if_pos h0]
    simp
  · rw [if_neg h0]
    have := toDigitsCore_length n (n / 10) [Nat.digitChar (n % 10)]
    intro hx
    rw [hx] at this
    simp at this

theorem afterCommaIsR_digits_skip (l : List Char) : ∀ rest : List Char,
    (∀ c ∈ l, c.isDigit = true) → afterCommaIsR (l ++ rest) = afterCommaIsR rest := by
  induction l with
  | nil => intro rest _; rfl
  | cons c t ih =>
    intro rest h
    have hc := h c (List.mem_cons_self _ _)
    have hcc : ¬(c = ',') := by
      intro hx
      subst hx
      exact absurd hc (by decide)
    simp only [List.cons_append, afterCommaIsR]
    rw [if_neg hcc]
    exact ih rest fun c2 h2 => h c2 (List.mem_cons_of_mem _ h2)

theorem afterCommaIsR_comma_digit (d tail : List Char) (hne : d ≠ [])
    (hd : ∀ c ∈ d, c.isDigit = true) :
    afterCommaIsR (',' :: ' ' :: (d ++ tail)) = false := by
  rcases d with _ | ⟨c, t⟩
  · exact absurd rfl hne
  · have hc : c.isDigit = true := hd c (List.mem_cons_self _ _)
    have hcr : (c == 'r') = false := by
      rw [beq_eq_false_iff_ne]
      intro hx
      subst hx
      exact absurd hc (by decide)
    have he : afterCommaIsR (',' :: ' ' :: ((c :: t) ++ tail)) =
        ((' ' == ' ') && (c == 'r')) := rfl
    rw [he, hcr]
    decide

theorem famOfChars_display (ir : IR) (s : String) (h : displayIR ir = Option.some s) :
    famOfChars s.data = famCode ir.op := by
  rcases ir with ⟨op, lhs, rhs⟩
  rcases lhs with _ | l
  · simp [displayIR] at h
  cases op
  case Label =>
    simp only [displayIR, get_irinfo, Option.some.injEq] at h
    subst h
    rfl
  case Jmp =>
    simp only [displayIR, get_irinfo, Option.some.injEq] at h
    subst h
    rfl
  case Nop =>
    simp only [displayIR, get_irinfo, Option.some.injEq] at h
    subst h
    rfl
  case SaveArgs =>
    simp only [displayIR, get_irinfo, Option.some.injEq] at h
    subst h
    rfl
  case Return =>
    simp only [displayIR, get_irinfo, Option.some.injEq] at h
    subst h
    rfl
  case Kill =>
    simp only [displayIR, get_irinfo, Option.some.injEq] at h
    subst h
    rfl
  case Add =>
    simp only [displayIR, get_irinfo] at h
    rcases rhs with _ | r
    · rw [Option.map_none'] at h
      exact absurd h (by simp)
    · rw [Option.map_some'] at h
      simp only [Option.some.injEq] at h
      subst h
      rfl
  case Mul =>
    simp only [displayIR, get_irinfo] at h
    rcases rhs with _ | r
    · rw [Option.map_none'] at h
      exact absurd h (by simp)
    · rw [Option.map_some'] at h
      simp only [Option.some.injEq] at h
      subst h
      rfl
  case Div =>
    simp only [displayIR, get_irinfo] at h
    rcases rhs with _ | r
    · rw [Option.map_none'] at h
      exact absurd h (by simp)
    · rw [Option.map_some'] at h
      simp only [Option.some.injEq] at h
      subst h
      rfl
  case Load =>
    simp only [displayIR, get_irinfo] at h
    rcases rhs with _ | r
    · rw [Option.map_none'] at h
      exact absurd h (by simp)
    · rw [Option.map_some'] at h
      simp only [Option.some.injEq] at h
      subst h
      rfl
  case Store =>
    simp only [displayIR, get_irinfo] at h
    rcases rhs with _ | r
    · rw [Option.map_none'] at h
      exact absurd h (by simp)
    · rw [Option.map_some'] at h
      simp only [Option.some.injEq] at h
      subst h
      rfl
  case Unless =>
    simp only [displayIR, get_irinfo] at h
    rcases rhs with _ | r
    · rw [Option.map_none'] at h
      exact absurd h (by simp)
    · rw [Option.map_some'] at h
      simp only [Option.some.injEq] at h
      subst h
      rfl
  case Imm =>
    simp only [displayIR, get_irinfo] at h
    rcases rhs with _ | r
    · rw [Option.map_none'] at h
      exact absurd h (by simp)
    · rw [Option.map_some'] at h
      simp only [Option.some.injEq] at h
      subst h
      have hd : (("MOV" ++ " r" ++ Nat.repr l ++ ", " ++ Nat.repr r ++ "\n")).data =
          'M' :: 'O' :: 'V' :: ' ' :: 'r' ::
            ((Nat.repr l).data ++ (',' :: ' ' :: ((Nat.repr r).data ++ ['\n']))) := by
        simp only [String.data_append, List.append_assoc]
        rfl
      rw [hd]
      have h1 : afterCommaIsR ((Nat.repr l).data ++
          (',' :: ' ' :: ((Nat.repr r).data ++ ['\n']))) = false := by
        rw [afterCommaIsR_digits_skip _ _ (repr_digits l)]
        exact afterCommaIsR_comma_digit _ _ (repr_data_ne_nil r) (repr_digits r)
      show (if afterCommaIsR ((Nat.repr l).data ++
        (',' :: ' ' :: ((Nat.repr r).data ++ ['\n']))) then 2 else 1) = 1
      rw [h1]
      rfl
  case SubImm =>
    simp only [displayIR, get_irinfo] at h
    rcases rhs with _ | r
    · rw [Option.map_none'] at h
      exact absurd h (by simp)
    · rw [Option.map_some'] at h
      simp only [Option.some.injEq] at h
      subst h
      have hd : (("SUB" ++ " r" ++ Nat.repr l ++ ", " ++ Nat.repr r ++ "\n")).data =
          'S' :: 'U' :: 'B' :: ' ' :: 'r' ::
            ((Nat.repr l).data ++ (',' :: ' ' :: ((Nat.repr r).data ++ ['\n']))) := by
        simp only [String.data_append, List.append_assoc]
        rfl
      rw [hd]
      have h1 : afterCommaIsR ((Nat.repr l).data ++
          (',' :: ' ' :: ((Nat.repr r).data ++ ['\n']))) = false := by
        rw [afterCommaIsR_digits_skip _ _ (repr_digits l)]
        exact afterCommaIsR_comma_digit _ _ (repr_data_ne_nil r) (repr_digits r)
      show (if afterCommaIsR ((Nat.repr l).data ++
        (',' :: ' ' :: ((Nat.repr r).data ++ ['\n']))) then 4 else 5) = 5
      rw [h1]
      rfl
  case Mov =>
    simp only [displayIR, get_irinfo] at h
    rcases rhs with _ | r
    · rw [Option.map_none'] at h
      exact absurd h (by simp)
    · rw [Option.map_some'] at h
      simp only [Option.some.injEq] at h
      subst h
      have hd : (("MOV" ++ " r" ++ Nat.repr l ++ ", r" ++ Nat.repr r ++ "\n")).data =
          'M' :: 'O' :: 'V' :: ' ' :: 'r' ::
            ((Nat.repr l).data ++ (',' :: ' ' :: 'r' :: ((Nat.repr r).data ++ ['\n']))) := by
        simp only [String.data_append, List.append_assoc]
        rfl
      rw [hd]
      have h1 : afterCommaIsR ((Nat.repr l).data ++
          (',' :: ' ' :: 'r' :: ((Nat.repr r).data ++ ['\n']))) = true := by
        rw [afterCommaIsR_digits_skip _ _ (repr_digits l)]
        rfl
      show (if afterCommaIsR ((Nat.repr l).data ++
        (',' :: ' ' :: 'r' :: ((Nat.repr r).data ++ ['\n']))) then 2 else 1) = 2
      rw [h1]
      rfl
  case Sub =>
    simp only [displayIR, get_irinfo] at h
    rcases rhs with _ | r
    · rw [Option.map_none'] at h
      exact absurd h (by simp)
    · rw [Option.map_some'] at h
      simp only [Option.some.injEq] at h
      subst h
      have hd : (("SUB" ++ " r" ++ Nat.repr l ++ ", r" ++ Nat.repr r ++ "\n")).data =
          'S' :: 'U' :: 'B' :: ' ' :: 'r' ::
            ((Nat.repr l).data ++ (',' :: ' ' :: 'r' :: ((Nat.repr r).data ++ ['\n']))) := by
        simp only [String.data_append, List.append_assoc]
        rfl
      rw [hd]
      have h1 : afterCommaIsR ((Nat.repr l).data ++
          (',' :: ' ' :: 'r' :: ((Nat.repr r).data ++ ['\n']))) = true := by
        rw [afterCommaIsR_digits_skip _ _ (repr_digits l)]
        rfl
      show (if afterCommaIsR ((Nat.repr l).data ++
        (',' :: ' ' :: 'r' :: ((Nat.repr r).data ++ ['\n']))) then 4 else 5) = 4
      rw [h1]
      rfl
  case Call cname nargs cargs =>
    simp only [displayIR, get_irinfo] at h
    split at h
    · simp only [Option.some.injEq] at h
      subst h
      rfl
    · simp at h

/-- Claim C3 (amended): for every pair of displayable instructions with
distinct opcode families, the textual renderings differ — except for the
`Label`/`Jmp` pair, whose renderings coincide by construction. -/
theorem C3_display_families (a b : IR) (sa sb : String)
    (ha : displayIR a = Option.some sa) (hb : displayIR b = Option.some sb)
    (hfam : a.op.family ≠ b.op.family)
    (hlj : ¬((a.op = .Label ∨ a.op = .Jmp) ∧ (b.op = .Label ∨ b.op = .Jmp))) :
    sa ≠ sb := by
  intro hsab
  have h1 := famOfChars_display a sa ha
  have h2 := famOfChars_display b sb hb
  rw [hsab] at h1
  rw [h1] at h2
  rcases famCode_inj _ _ h2 with hc | hc
  · exact hfam hc
  · exact hlj hc

/-- Counterexample to Claim C3 as stated: the lowering of an if/else emits
both a `Jmp` and a `Label` instruction with operand 1 — two instructions
with distinct opcodes whose textual renderings are identical. -/
theorem C3_counterexample :
    gen_ir initState [exProgIf] = Option.some ([exFnIf], exStateIf) ∧
    (⟨.Jmp, Option.some 1, Option.none⟩ : IR) ∈ exFnIf.ir ∧
    (⟨.Label, Option.some 1, Option.none⟩ : IR) ∈ exFnIf.ir ∧
    IROp.Jmp.family ≠ IROp.Label.family ∧
    displayIR ⟨.Jmp, Option.some 1, Option.none⟩ =
      displayIR ⟨.Label, Option.some 1, Option.none⟩ :=
  ⟨rfl, by decide, by decide, by decide, rfl⟩

/-- Witness for C3 (amended) at the `Imm`/`Mov` pair, which shares the
`MOV` mnemonic but is distinguished by the second operand's shape. -/
theorem C3_display_families_witness :
    displayIR ⟨.Imm, Option.some 1, Option.some 2⟩ = Option.some "MOV r1, 2\n" ∧
    displayIR ⟨.Mov, Option.some 1, Option.some 2⟩ = Option.some "MOV r1, r2\n" ∧
    ("MOV r1, 2\n" : String) ≠ "MOV r1, r2\n" :=
  ⟨rfl, rfl,
   C3_display_families ⟨.Imm, Option.some 1, Option.some 2⟩ ⟨.Mov, Option.some 1, Option.some 2⟩
     "MOV r1, 2\n" "MOV r1, r2\n" rfl rfl (by decide) (by decide)⟩

end R9cc
